import Mathlib

/-!
Verification development for the run-combination engine of dyPolyChord
(`dyPolyChord/output_processing.py`).

The shallow embedding below translates the source functions
`combine_resumed_dyn_run` and `process_dypolychord_run` into Lean.
Log-likelihood values are modelled as integers (the code only compares
them for order and equality and assumes they are unique within a run);
entries of the `thread_min_max` table are modelled by `FV`, an integer
extended with negative infinity, because the table stores `-np.inf` for
the birth bound of original seed threads.  Python `assert` failures are
modelled by an `Err` value returned through `Except`, with one
constructor per distinct failure site, following the error taxonomy of
the specification (ConsistencyError / InvariantError / ConfigurationError).

The nestcheck collaborators called by the source
(`nestcheck.analyse_run.get_run_threads`, `combine_threads`,
`combine_ns_runs` and `nestcheck.data_processing.check_ns_run`) are not
part of this repository; they are modelled from the specification where
marked.
-/

set_option maxRecDepth 100000

namespace DyPolyChord

/-- A float value as stored in the `thread_min_max` array: either negative
infinity (`-np.inf`, the birth bound of an original seed thread) or a finite
value. -/
inductive FV where
  | ninf : FV
  | fin : Int → FV
deriving DecidableEq, Repr

/-- Order on `FV`: negative infinity is below everything. -/
def FV.ble : FV → FV → Bool
  | .ninf, _ => true
  | .fin _, .ninf => false
  | .fin a, .fin b => a ≤ b

instance : LE FV := ⟨fun a b => FV.ble a b = true⟩

instance (a b : FV) : Decidable (a ≤ b) :=
  decidable_of_iff (FV.ble a b = true) Iff.rfl

/-- A nested-sampling run record, as the dict produced by
`process_polychord_run`: parallel arrays of points (`theta`, `logl`,
`nlive_array`, `thread_labels`), the `thread_min_max` table of
`(birth_bound, death_bound)` rows, and the `output['nlike']` metadata. -/
structure Run where
  theta : List (List Int)
  logl : List Int
  nlive_array : List Int
  thread_labels : List Nat
  thread_min_max : List (FV × FV)
  nlike : Int
deriving DecidableEq, Repr

/-- The resume record `dyn_info` loaded for the `dynamic_goal = 1` strategy. -/
structure DynInfo where
  resume_ndead : Nat
  resume_nlike : Int
deriving DecidableEq, Repr

/-- Failure values for the pipeline.  Each constructor corresponds to one
failure site of the source; `isConsistency` / `isInvariant` map them onto the
specification's error taxonomy. -/
inductive Err where
  /-- Failure of `assert dynamic_goal in [0, 1]` (ConfigurationError). -/
  | configurationError : Err
  /-- Failure of `assert np.all(init['thread_min_max'][:, 0] == -np.inf)`. -/
  | seedBirthError : Err
  /-- Failure of the prefix assert on `init['logl']` versus `dyn['logl']`
  (ConsistencyError, duplicate-prefix mismatch). -/
  | prefixMismatch : Err
  /-- Failure of `assert np.where(dyn['logl'] == live_logl)[0].shape == (1,)`
  (ConsistencyError, expected live point missing from resumed run). -/
  | livePointMissing : Err
  /-- the two thread-bound asserts after relabelling (InvariantError,
  thread bound mismatch). -/
  | threadBoundMismatch : Err
  /-- an out-of-range row access into `thread_min_max` (numpy IndexError). -/
  | indexError : Err
  /-- Failure inside `combine_threads(..., assert_birth_point=True)` (InvariantError,
  orphan birth point). -/
  | orphanBirthPoint : Err
  /-- The validator `check_ns_run` rejected the merged run. -/
  | validationError : Err
deriving DecidableEq, Repr

/-- Model of `np.unique` on a list of labels: the distinct values in
increasing order. -/
def uniqSorted (l : List Nat) : List Nat :=
  (List.range (l.foldr max 0 + 1)).filter (fun x => l.contains x)

/-- Positions (starting from `k`) of the occurrences of `lab`, in increasing
order: the tail-indexed core of `np.where(labels == lab)[0]`. -/
def thIndsFrom (lab : Nat) (k : Nat) : List Nat → List Nat
  | [] => []
  | l :: t => if l = lab then k :: thIndsFrom lab (k + 1) t else thIndsFrom lab (k + 1) t

/-- Model of `np.where(labels == lab)[0]`: the sorted list of positions
holding `lab`. -/
def thInds (labels : List Nat) (lab : Nat) : List Nat :=
  thIndsFrom lab 0 labels

/-- Core of `np.delete`: remove the entries whose absolute position (starting
at `k`) belongs to `I`. -/
def deleteIdxsFrom {α : Type} (I : List Nat) (k : Nat) : List α → List α
  | [] => []
  | a :: t => if I.contains k then deleteIdxsFrom I (k + 1) t
              else a :: deleteIdxsFrom I (k + 1) t

/-- Model of `np.delete(l, I)`: remove the positions listed in `I`. -/
def deleteIdxs {α : Type} (l : List α) (I : List Nat) : List α :=
  deleteIdxsFrom I 0 l

/-- The entries of a parallel array `xs` belonging to thread `lab`
(`xs[labels == lab]`). -/
def thPick {α : Type} (labels : List Nat) (xs : List α) (lab : Nat) : List α :=
  ((labels.zip xs).filter (fun q => q.1 == lab)).map (fun q => q.2)

/-- Python `enumerate` over a list of labels, with positional access. -/
def enumIdx (l : List Nat) : List (Nat × Nat) :=
  (List.range l.length).map (fun i => (i, l.getD i 0))

/-- Drop the first `n` points of a run, as in
`init[key] = init[key][resume_ndead:]` for `theta`, `nlive_array`, `logl`,
`thread_labels` (the `thread_min_max` table is not trimmed). -/
def trimRun (r : Run) (n : Nat) : Run :=
  { r with theta := r.theta.drop n,
           nlive_array := r.nlive_array.drop n,
           logl := r.logl.drop n,
           thread_labels := r.thread_labels.drop n }

/-- One pass of the loop
`for i, th_lab in enumerate(np.unique(init['thread_labels']))` of
`combine_resumed_dyn_run`: collect the index of each thread's first remaining
point (`live_inds`), record threads reduced to a single point
(`empty_thread_inds`), require each live logl to occur exactly once in `dyn`,
and write the live logl into column 0 of the thread's `thread_min_max` row. -/
def resolveLiveAux (dynLogl : List Int) (labels : List Nat) (logl : List Int) :
    List (Nat × Nat) → List Nat → List Nat → List (FV × FV) →
    Except Err (List Nat × List Nat × List (FV × FV))
  | [], live, empt, tmm => .ok (live, empt, tmm)
  | (i, lab) :: rest, live, empt, tmm =>
    let inds := thInds labels lab
    let j := inds.headI
    let ll := logl.getD j 0
    let live' := live ++ [j]
    let empt' := if inds.length = 1 then empt ++ [i] else empt
    if dynLogl.count ll = 1 then
      match tmm.get? i with
      | none => .error .indexError
      | some row => resolveLiveAux dynLogl labels logl rest live' empt' (tmm.set i (.fin ll, row.2))
    else .error .livePointMissing

/-- The live-point resolution stage of `combine_resumed_dyn_run` (source
lines 124-134), run over the trimmed arrays. -/
def resolveLive (dynLogl : List Int) (labels : List Nat) (logl : List Int)
    (tmm : List (FV × FV)) : Except Err (List Nat × List Nat × List (FV × FV)) :=
  resolveLiveAux dynLogl labels logl (enumIdx (uniqSorted labels)) [] [] tmm

/-- The pair of bound conditions asserted for one thread inside the
relabelling loop: `thread_min_max[i, 0] <= logl[inds[0]]` and
`thread_min_max[i, 1] == logl[inds[-1]]` where `inds` are the positions of
the thread's label. -/
def boundPass (labels : List Nat) (logl : List Int) (lab : Nat) (row : FV × FV) : Prop :=
  row.1 ≤ FV.fin (logl.getD (thInds labels lab).headI 0) ∧
  row.2 = FV.fin (logl.getD ((thInds labels lab).getLastD 0) 0)

instance (labels : List Nat) (logl : List Int) (lab : Nat) (row : FV × FV) :
    Decidable (boundPass labels logl lab row) := by
  unfold boundPass
  exact inferInstance

/-- The two asserts inside the relabelling loop:
`assert init['thread_min_max'][i, 0] <= init['logl'][inds[0]]` and
`assert init['thread_min_max'][i, 1] == init['logl'][inds[-1]]`, executed for
each `(i, th_lab)` of `enumerate(np.unique(init['thread_labels']))`. -/
def checkThreadBounds (tmm : List (FV × FV)) (labels : List Nat) (logl : List Int) :
    List (Nat × Nat) → Except Err Unit
  | [] => .ok ()
  | (i, lab) :: rest =>
    match tmm.get? i with
    | none => .error .indexError
    | some row =>
      if boundPass labels logl lab row then
        checkThreadBounds tmm labels logl rest
      else .error .threadBoundMismatch

/-- The body of `if empty_thread_inds:` in `combine_resumed_dyn_run` (source
lines 140-153): delete the empty threads' `thread_min_max` rows, check the
thread bounds of each surviving thread, and rewrite every point's label to
the position of its old label in the sorted list of surviving labels. -/
def relabelRun (r : Run) (empty_thread_inds : List Nat) : Except Err Run :=
  let tmm := deleteIdxs r.thread_min_max empty_thread_inds
  let us := uniqSorted r.thread_labels
  match checkThreadBounds tmm r.thread_labels r.logl (enumIdx us) with
  | .error e => .error e
  | .ok _ => .ok { r with thread_min_max := tmm,
                          thread_labels := r.thread_labels.map (fun lab => us.indexOf lab) }

/-- The relabelling stage: the relabelling body runs only when
`empty_thread_inds` is nonempty (`if empty_thread_inds:`). -/
def relabelStage (r : Run) (empty_thread_inds : List Nat) : Except Err Run :=
  if empty_thread_inds = [] then .ok r else relabelRun r empty_thread_inds

/-- Removal of the identified live points (source lines 135-138): delete the
rows listed in `live` from the parallel point arrays and install the updated
`thread_min_max` table. -/
def pruneLive (t : Run) (live : List Nat) (tmm1 : List (FV × FV)) : Run :=
  { t with theta := deleteIdxs t.theta live,
           nlive_array := deleteIdxs t.nlive_array live,
           logl := deleteIdxs t.logl live,
           thread_labels := deleteIdxs t.thread_labels live,
           thread_min_max := tmm1 }

/-- Label shift (source line 156):
`init['thread_labels'] += dyn['thread_min_max'].shape[0]`. -/
def shiftLabels (t : Run) (n : Nat) : Run :=
  { t with thread_labels := t.thread_labels.map (fun lab => lab + n) }

/-- A single thread extracted from a run: its points in order together with
its `(birth, death)` bounds. -/
structure NsThread where
  theta : List (List Int)
  logl : List Int
  birth : FV
  death : FV
deriving DecidableEq, Repr

/-- Modelled from the spec: `nestcheck.analyse_run.get_run_threads` is not in
this repository.  Per the specification it decomposes a run into thread
objects: for each `(i, th_lab)` of `enumerate(np.unique(thread_labels))`, the
points carrying that label in order, with the bounds taken from row `i` of
`thread_min_max`. -/
def get_run_threads (r : Run) : List NsThread :=
  (enumIdx (uniqSorted r.thread_labels)).map (fun p =>
    { theta := thPick r.thread_labels r.theta p.2,
      logl := thPick r.thread_labels r.logl p.2,
      birth := (r.thread_min_max.getD p.1 (.ninf, .ninf)).1,
      death := (r.thread_min_max.getD p.1 (.ninf, .ninf)).2 })

/-- A point of the merged pool: its parameters, logl and the index of the
thread it came from. -/
structure MPt where
  theta : List Int
  logl : Int
  lab : Nat
deriving DecidableEq, Repr

/-- The points of thread number `k` of the pool. -/
def threadPts (k : Nat) (th : NsThread) : List MPt :=
  (List.range th.logl.length).map (fun m =>
    { theta := th.theta.getD m [], logl := th.logl.getD m 0, lab := k })

/-- Enumeration of the thread pool with positional indices. -/
def enumThreads (l : List NsThread) : List (Nat × NsThread) :=
  (List.range l.length).map (fun i => (i, l.getD i ⟨[], [], .ninf, .ninf⟩))

/-- Modelled from the spec: the birth-point validation of
`nestcheck.analyse_run.combine_threads(..., assert_birth_point=True)` (not in
this repository).  Every thread's birth bound must be negative infinity (an
original seed thread) or equal to the logl of a point belonging to another
thread of the merged pool. -/
def birthPointsOk (ths : List NsThread) (pts : List MPt) : Bool :=
  (enumThreads ths).all (fun p =>
    decide (p.2.birth = FV.ninf) ||
      pts.any (fun q => decide (q.lab ≠ p.1) && decide (FV.fin q.logl = p.2.birth)))

/-- The pool of points of a list of threads, each labelled by its thread's
position in the pool. -/
def poolPts (ths : List NsThread) : List MPt :=
  ((List.range ths.length).map (fun k =>
    threadPts k (ths.getD k ⟨[], [], .ninf, .ninf⟩))).flatten

/-- Modelled from the spec: `nestcheck.analyse_run.combine_threads` is not in
this repository.  Per the specification (RunMerger, steps 2-6): concatenate
the threads' points into one pool, sort ascending by logl, recompute the
live-point count at each point as the number of threads whose
`[birth_bound, death_bound)` interval brackets its likelihood, carry the
`(birth, death)` table over in the final thread ordering, and (when
`assert_birth_point` is set) validate that every birth point is traceable. -/
def combine_threads (ths : List NsThread) (assert_birth_point : Bool) : Except Err Run :=
  let pts := poolPts ths
  let sorted := pts.insertionSort (fun a b => a.logl ≤ b.logl)
  if assert_birth_point ∧ birthPointsOk ths pts = false then .error .orphanBirthPoint
  else
    .ok { theta := sorted.map (fun p => p.theta),
          logl := sorted.map (fun p => p.logl),
          nlive_array := sorted.map (fun p =>
            ((ths.filter (fun th =>
              decide (th.birth ≤ FV.fin p.logl) && decide (¬ th.death ≤ FV.fin p.logl) )).length : Int)),
          thread_labels := sorted.map (fun p => p.lab),
          thread_min_max := ths.map (fun th => (th.birth, th.death)),
          nlike := 0 }

/-- The function `combine_resumed_dyn_run(init, dyn, resume_ndead)` (source lines 110-160),
with the final state of the mutable `init` buffer made explicit: the source
mutates the `init` dict in place, so the result is the pair
`(init after the call, returned run)`. -/
def combine_resumed_dyn_run_state (init dyn : Run) (resume_ndead : Nat) :
    Except Err (Run × Run) :=
  if init.logl.take resume_ndead = dyn.logl.take resume_ndead then
    let t := trimRun init resume_ndead
    match resolveLive dyn.logl t.thread_labels t.logl t.thread_min_max with
    | .error e => .error e
    | .ok (live, empt, tmm1) =>
      match relabelStage (pruneLive t live tmm1) empt with
      | .error e => .error e
      | .ok t2 =>
        let t3 : Run := shiftLabels t2 dyn.thread_min_max.length
        match combine_threads (get_run_threads dyn ++ get_run_threads t3) true with
        | .error e => .error e
        | .ok run => .ok (t3, run)
  else .error .prefixMismatch

/-- The function `combine_resumed_dyn_run`, projected on its return value. -/
def combine_resumed_dyn_run (init dyn : Run) (resume_ndead : Nat) : Except Err Run :=
  (combine_resumed_dyn_run_state init dyn resume_ndead).map (fun p => p.2)

/-- Modelled from the spec: `nestcheck.analyse_run.combine_ns_runs([init, dyn])`
is not in this repository.  Per the specification (dispatcher, no-overlap
case) it unions the two runs' threads directly through RunMerger's
steps 2-6. -/
def combine_ns_runs (init dyn : Run) : Except Err Run :=
  combine_threads (get_run_threads init ++ get_run_threads dyn) true

/-- Strict ascent of a list of logl values. -/
def strictAscending : List Int → Bool
  | [] => true
  | [_] => true
  | a :: b :: t => decide (a < b) && strictAscending (b :: t)

/-- Modelled from the spec: `nestcheck.data_processing.check_ns_run` is not in
this repository (the RunValidator collaborator).  Per the specification's Run
invariants it requires: points strictly ascending by logl with no duplicates;
for each thread, `birth_bound ≤` logl of its first point and
`death_bound ==` logl of its last point; thread labels exactly the contiguous
range `0..T-1`; and `len(nlive_array) == len(points)`. -/
def check_ns_run (r : Run) : Bool :=
  strictAscending r.logl &&
  (uniqSorted r.thread_labels).all (fun lab =>
    decide ((r.thread_min_max.getD lab (.ninf, .ninf)).1 ≤
       FV.fin (r.logl.getD (thInds r.thread_labels lab).headI 0)) &&
    decide ((r.thread_min_max.getD lab (.ninf, .ninf)).2 =
       FV.fin (r.logl.getD ((thInds r.thread_labels lab).getLastD 0) 0))) &&
  decide (uniqSorted r.thread_labels = List.range r.thread_min_max.length) &&
  decide (r.nlive_array.length = r.logl.length)

/-- The function `process_dypolychord_run` (source lines 81-107) on already-loaded run
records: check `dynamic_goal in [0, 1]`, check every `init` thread's birth
bound is `-np.inf`, combine by the selected strategy, fill in
`output['nlike']`, and validate the merged run with `check_ns_run`. -/
def process_dypolychord_run (init dyn : Run) (dynamic_goal : Int) (dyn_info : DynInfo) :
    Except Err Run :=
  if dynamic_goal = 0 ∨ dynamic_goal = 1 then
    if init.thread_min_max.all (fun row => decide (row.1 = FV.ninf)) then
      match (if dynamic_goal = 0 then
          (combine_ns_runs init dyn).map (fun r => { r with nlike := init.nlike + dyn.nlike })
        else
          (combine_resumed_dyn_run init dyn dyn_info.resume_ndead).map
            (fun r => { r with nlike := init.nlike + dyn.nlike - dyn_info.resume_nlike })) with
      | .error e => .error e
      | .ok run => if check_ns_run run then .ok run else .error .validationError
    else .error .seedBirthError
  else .error .configurationError

instance {ε α : Type} [DecidableEq ε] [DecidableEq α] : DecidableEq (Except ε α) := fun x y =>
  match x, y with
  | .error a, .error b =>
    if h : a = b then isTrue (by rw [h]) else
      isFalse (fun hc => h (by injection hc))
  | .ok a, .ok b =>
    if h : a = b then isTrue (by rw [h]) else
      isFalse (fun hc => h (by injection hc))
  | .error _, .ok _ => isFalse (fun hc => by cases hc)
  | .ok _, .error _ => isFalse (fun hc => by cases hc)

/-! ### Concrete run records used as witnesses and counterexamples -/

/-- An initial run with two seed threads: thread 0 owns logl 10, 30 and
thread 1 owns logl 20, 40. -/
def cInit1 : Run :=
  ⟨[[1], [2], [3], [4]], [10, 20, 30, 40], [2, 2, 2, 1], [0, 1, 0, 1],
    [(.ninf, .fin 30), (.ninf, .fin 40)], 100⟩

/-- A dynamic run resumed after the first two dead points of `cInit1`; it
contains those two points, the two points live at the checkpoint (30 and 40),
and one new point (25). -/
def cDyn1 : Run :=
  ⟨[[5], [6], [7], [8], [9]], [10, 20, 25, 30, 40], [2, 2, 2, 2, 1], [0, 1, 0, 1, 0],
    [(.ninf, .fin 40), (.ninf, .fin 30)], 50⟩

/-- The run produced by `process_dypolychord_run cInit1 cDyn1 1 ⟨2, 30⟩`. -/
def w1run : Run :=
  ⟨[[5], [6], [7], [8], [9]], [10, 20, 25, 30, 40], [2, 2, 2, 1, 0], [0, 1, 0, 1, 0],
    [(.ninf, .fin 40), (.ninf, .fin 30)], 120⟩

/-- A single-thread initial run with logl values disjoint from `cDyn2`. -/
def cInit2 : Run := ⟨[[1], [2]], [1, 3], [1, 1], [0, 0], [(.ninf, .fin 3)], 7⟩

/-- A single-thread dynamic run not overlapping `cInit2`. -/
def cDyn2 : Run := ⟨[[3], [4]], [2, 4], [1, 1], [0, 0], [(.ninf, .fin 4)], 8⟩

/-- The run produced by `process_dypolychord_run cInit2 cDyn2 0 ⟨0, 0⟩`. -/
def w2run : Run :=
  ⟨[[1], [3], [2], [4]], [1, 2, 3, 4], [2, 2, 1, 0], [0, 1, 0, 1],
    [(.ninf, .fin 3), (.ninf, .fin 4)], 15⟩

/-- An initial run whose thread 0 consists solely of the dead point at
logl 1, so that trimming one dead point makes thread 0 vanish entirely while
thread 1 (logl 2, 3) survives. -/
def cInitA : Run :=
  ⟨[[0], [0], [0]], [1, 2, 3], [1, 1, 1], [0, 1, 1],
    [(.ninf, .fin 1), (.ninf, .fin 3)], 0⟩

/-- A dynamic run resumed after one dead point of `cInitA`, containing that
point, thread 1's live point (logl 2) and a new point (logl 4). -/
def cDynA : Run :=
  ⟨[[0], [0], [0]], [1, 2, 4], [1, 1, 1], [0, 0, 0], [(.ninf, .fin 4)], 0⟩

/-- A two-point single-thread initial run (logl 1, 2). -/
def cI6 : Run := ⟨[[1], [2]], [1, 2], [1, 1], [0, 0], [(.ninf, .fin 2)], 0⟩

/-- A one-point dynamic run whose only dead point duplicates the point of
`cI6` that is live at a checkpoint with zero dead points. -/
def cD6 : Run := ⟨[[9]], [1], [1], [0], [(.ninf, .fin 1)], 0⟩

/-- A trimmed initial run as it reaches the relabelling stage after thread 0
vanished during trimming: its only surviving thread is labelled 1 and no
thread became empty during live-point removal. -/
def cR3 : Run := ⟨[[0]], [3], [1], [1], [(.fin 2, .fin 1), (.ninf, .fin 3)], 0⟩

/-- A run used by the relabelling-stage witness: one surviving thread
labelled 2 holding logl 5 and 6, after thread row 0 became empty. -/
def cR3w : Run := ⟨[[5], [6]], [5, 6], [1, 1], [2, 2], [(.fin 9, .fin 9), (.fin 3, .fin 6)], 0⟩

/-- An initial run violating the seed-thread precondition: its only thread
has a finite birth bound. -/
def cBad : Run := ⟨[[0]], [5], [1], [0], [(.fin 5, .fin 5)], 0⟩

/-- The output of `relabelRun cR3w [0]`. -/
def cR3wOut : Run := ⟨[[5], [6]], [5, 6], [1, 1], [0, 0], [(.fin 3, .fin 6)], 0⟩

/-- A run reaching the relabelling branch whose surviving thread violates the
birth-bound postcondition (birth 9 above its first logl 5). -/
def cR4bad : Run :=
  ⟨[[5], [6]], [5, 6], [1, 1], [2, 2], [(.fin 0, .fin 0), (.fin 9, .fin 6)], 0⟩

/-- The run returned by the plain union-merge path on `cI6`, `cD6`. -/
def u6 : Run :=
  ⟨[[1], [9], [2]], [1, 1, 2], [1, 1, 0], [0, 1, 0],
    [(.ninf, .fin 2), (.ninf, .fin 1)], 0⟩

/-- The run returned by the resumed path on `cI6`, `cD6` with
`resume_ndead = 0`. -/
def r6 : Run :=
  ⟨[[9], [2]], [1, 2], [1, 0], [0, 1],
    [(.ninf, .fin 1), (.fin 1, .fin 2)], 0⟩

/-- The final state of the `init` buffer after
`combine_resumed_dyn_run_state cI6 cD6 0`. -/
def ia6 : Run := ⟨[[2]], [2], [1], [1], [(.fin 1, .fin 2)], 0⟩

/-- The positions deleted by the live-point removal stage: the first
remaining position of each thread of the trimmed run. -/
def liveOf (labels : List Nat) : List Nat :=
  (uniqSorted labels).map (fun u => (thInds labels u).headI)

/-! ### Basic lemmas about the list helpers -/

theorem le_foldr_max {l : List Nat} {x : Nat} (h : x ∈ l) : x ≤ l.foldr max 0 := by
  induction l with
  | nil => cases h
  | cons a t ih =>
    rcases List.mem_cons.1 h with rfl | h'
    · exact Nat.le_max_left _ _
    · exact le_trans (ih h') (Nat.le_max_right _ _)

theorem foldr_max_le {l : List Nat} {m : Nat} (h : ∀ x ∈ l, x ≤ m) : l.foldr max 0 ≤ m := by
  induction l with
  | nil => exact Nat.zero_le m
  | cons a t ih =>
    exact Nat.max_le.2 ⟨h a (List.mem_cons_self a t),
      ih (fun x hx => h x (List.mem_cons_of_mem a hx))⟩

theorem mem_uniqSorted {l : List Nat} {x : Nat} : x ∈ uniqSorted l ↔ x ∈ l := by
  unfold uniqSorted
  simp only [List.mem_filter, List.mem_range, List.elem_iff]
  constructor
  · exact fun h => h.2
  · exact fun h => ⟨Nat.lt_succ_of_le (le_foldr_max h), h⟩

theorem nodup_uniqSorted (l : List Nat) : (uniqSorted l).Nodup :=
  (List.nodup_range _).filter _

theorem pairwise_uniqSorted (l : List Nat) : (uniqSorted l).Pairwise (· < ·) :=
  (List.pairwise_lt_range _).filter _

theorem uniqSorted_ne_nil {l : List Nat} (h : l ≠ []) : uniqSorted l ≠ [] := by
  intro hu
  rcases List.exists_mem_of_ne_nil l h with ⟨x, hx⟩
  have : x ∈ uniqSorted l := mem_uniqSorted.2 hx
  rw [hu] at this
  cases this

theorem uniqSorted_eq_range {l : List Nat} {k : Nat}
    (h1 : ∀ x ∈ l, x < k) (h2 : ∀ i < k, i ∈ l) : uniqSorted l = List.range k := by
  unfold uniqSorted
  have hmax : l.foldr max 0 + 1 = k ∨ (k = 0 ∧ l = []) := by
    cases k with
    | zero =>
      right
      refine ⟨rfl, ?_⟩
      cases l with
      | nil => rfl
      | cons a t => exact absurd (h1 a (List.mem_cons_self a t)) (Nat.not_lt_zero a)
    | succ m =>
      left
      have hub : l.foldr max 0 ≤ m :=
        foldr_max_le (fun x hx => Nat.lt_succ_iff.1 (h1 x hx))
      have hlb : m ≤ l.foldr max 0 := le_foldr_max (h2 m (Nat.lt_succ_self m))
      omega
  rcases hmax with hk | ⟨rfl, rfl⟩
  · rw [hk]
    apply List.filter_eq_self.2
    intro a ha
    exact List.elem_iff.2 (h2 a (List.mem_range.1 ha))
  · rfl

theorem map_getD_range {α : Type} (l : List α) (d : α) :
    (List.range l.length).map (fun i => l.getD i d) = l := by
  induction l with
  | nil => rfl
  | cons a t ih =>
    rw [List.length_cons, List.range_succ_eq_map, List.map_cons, List.map_map]
    refine congrArg₂ List.cons rfl ?_
    have hc : ((fun i => (a :: t).getD i d) ∘ Nat.succ) = (fun i => t.getD i d) := by
      funext i
      rfl
    rw [hc, ih]

theorem map_getD_range_comp {α β : Type} (l : List α) (d : α) (f : α → β) :
    (List.range l.length).map (fun i => f (l.getD i d)) = l.map f := by
  have := congrArg (List.map f) (map_getD_range l d)
  rw [List.map_map] at this
  exact this

theorem getD_indexOf {l : List Nat} {a : Nat} (h : a ∈ l) (d : Nat) :
    l.getD (l.indexOf a) d = a := by
  have hlt : l.indexOf a < l.length := List.indexOf_lt_length.2 h
  rw [List.getD_eq_getElem l d hlt]
  exact List.getElem_indexOf hlt

theorem indexOf_getD_of_nodup {l : List Nat} (h : l.Nodup) {i : Nat} (hi : i < l.length)
    (d : Nat) : l.indexOf (l.getD i d) = i := by
  rw [List.getD_eq_getElem l d hi]
  exact List.indexOf_getElem h i hi

theorem indexOf_lt_of_pairwise {us : List Nat} (hs : us.Pairwise (· < ·)) {a b : Nat}
    (ha : a ∈ us) (hb : b ∈ us) (hab : a < b) : us.indexOf a < us.indexOf b := by
  induction us with
  | nil => cases ha
  | cons u t ih =>
    obtain ⟨hu, hs'⟩ := List.pairwise_cons.1 hs
    by_cases hua : u = a
    · subst hua
      have hub : u ≠ b := Nat.ne_of_lt hab
      rw [List.indexOf_cons_self, List.indexOf_cons_ne t hub]
      exact Nat.succ_pos _
    · have ha' : a ∈ t := by
        rcases List.mem_cons.1 ha with h | h
        · exact absurd h.symm hua
        · exact h
      have hua' : u < a := hu a ha'
      have hub : u ≠ b := Nat.ne_of_lt (lt_trans hua' hab)
      have hb' : b ∈ t := by
        rcases List.mem_cons.1 hb with h | h
        · exact absurd (h ▸ hab) (not_lt_of_gt hua')
        · exact h
      rw [List.indexOf_cons_ne t hua, List.indexOf_cons_ne t hub]
      exact Nat.succ_lt_succ (ih hs' ha' hb')

theorem thIndsFrom_eq_nil {lab : Nat} {l : List Nat} (h : lab ∉ l) (k : Nat) :
    thIndsFrom lab k l = [] := by
  induction l generalizing k with
  | nil => rfl
  | cons a t ih =>
    unfold thIndsFrom
    rw [if_neg (fun he => h (by rw [← he]; exact List.mem_cons_self a t))]
    exact ih (fun ht => h (List.mem_cons_of_mem a ht)) (k + 1)

theorem thIndsFrom_ne_nil {lab : Nat} {l : List Nat} (h : lab ∈ l) (k : Nat) :
    thIndsFrom lab k l ≠ [] := by
  induction l generalizing k with
  | nil => cases h
  | cons a t ih =>
    unfold thIndsFrom
    by_cases ha : a = lab
    · rw [if_pos ha]
      exact List.cons_ne_nil _ _
    · rw [if_neg ha]
      have ht : lab ∈ t := by
        rcases List.mem_cons.1 h with he | ht
        · exact absurd he.symm ha
        · exact ht
      exact ih ht (k + 1)

theorem headI_thIndsFrom {lab : Nat} {l : List Nat} (h : lab ∈ l) (k : Nat) :
    (thIndsFrom lab k l).headI = k + l.indexOf lab := by
  induction l generalizing k with
  | nil => cases h
  | cons a t ih =>
    unfold thIndsFrom
    by_cases ha : a = lab
    · subst ha
      rw [if_pos rfl, List.indexOf_cons_self]
      rfl
    · rw [if_neg ha]
      have ht : lab ∈ t := by
        rcases List.mem_cons.1 h with he | ht
        · exact absurd he.symm ha
        · exact ht
      rw [ih ht (k + 1), List.indexOf_cons_ne t ha]
      omega

theorem length_thIndsFrom (lab : Nat) (l : List Nat) (k : Nat) :
    (thIndsFrom lab k l).length = l.count lab := by
  induction l generalizing k with
  | nil => rfl
  | cons a t ih =>
    unfold thIndsFrom
    by_cases ha : a = lab
    · subst ha
      rw [if_pos rfl]
      simp [List.count_cons, ih]
    · rw [if_neg ha]
      rw [ih (k + 1)]
      simp [List.count_cons, Ne.symm ha]

theorem thIndsFrom_map {lab i : Nat} {l : List Nat} (f : Nat → Nat)
    (hf : ∀ x ∈ l, (f x = i ↔ x = lab)) (k : Nat) :
    thIndsFrom i k (l.map f) = thIndsFrom lab k l := by
  induction l generalizing k with
  | nil => rfl
  | cons a t ih =>
    rw [List.map_cons]
    unfold thIndsFrom
    have hfa := hf a (List.mem_cons_self a t)
    have ihr := ih (fun x hx => hf x (List.mem_cons_of_mem a hx)) (k + 1)
    by_cases ha : a = lab
    · rw [if_pos (hfa.2 ha), if_pos ha, ihr]
    · rw [if_neg (fun hh => ha (hfa.1 hh)), if_neg ha, ihr]

theorem length_deleteIdxsFrom_le {α : Type} (I : List Nat) (k : Nat) (l : List α) :
    (deleteIdxsFrom I k l).length ≤ l.length := by
  induction l generalizing k with
  | nil => exact Nat.le_refl 0
  | cons a t ih =>
    unfold deleteIdxsFrom
    by_cases hc : I.contains k
    · rw [if_pos hc]
      exact Nat.le_succ_of_le (ih (k + 1))
    · rw [if_neg hc, List.length_cons, List.length_cons]
      exact Nat.succ_le_succ (ih (k + 1))

theorem length_deleteIdxsFrom_lt {α : Type} {I : List Nat} {l : List α} {k i : Nat}
    (hi : i ∈ I) (h1 : k ≤ i) (h2 : i < k + l.length) :
    (deleteIdxsFrom I k l).length < l.length := by
  induction l generalizing k with
  | nil =>
    simp only [List.length_nil] at h2
    omega
  | cons a t ih =>
    unfold deleteIdxsFrom
    by_cases hc : I.contains k
    · rw [if_pos hc]
      exact Nat.lt_succ_of_le (length_deleteIdxsFrom_le I (k + 1) t)
    · rw [if_neg hc, List.length_cons, List.length_cons]
      have hik : i ≠ k := by
        intro he
        exact hc (he ▸ List.elem_iff.2 hi)
      have h1' : k + 1 ≤ i := by omega
      have h2' : i < (k + 1) + t.length := by
        rw [List.length_cons] at h2
        omega
      exact Nat.succ_lt_succ (ih h1' h2')

theorem length_deleteIdxsFrom_eq {α β : Type} {l1 : List α} {l2 : List β}
    (h : l1.length = l2.length) (I : List Nat) (k : Nat) :
    (deleteIdxsFrom I k l1).length = (deleteIdxsFrom I k l2).length := by
  induction l1 generalizing l2 k with
  | nil =>
    cases l2 with
    | nil => rfl
    | cons b t2 => cases h
  | cons a t1 ih =>
    cases l2 with
    | nil => cases h
    | cons b t2 =>
      have ht : t1.length = t2.length := Nat.succ_injective h
      unfold deleteIdxsFrom
      by_cases hc : I.contains k
      · rw [if_pos hc, if_pos hc]
        exact ih ht (k + 1)
      · rw [if_neg hc, if_neg hc, List.length_cons, List.length_cons, ih ht (k + 1)]

theorem zip_deleteIdxsFrom {α β : Type} {l1 : List α} {l2 : List β}
    (h : l1.length = l2.length) (I : List Nat) (k : Nat) :
    (deleteIdxsFrom I k l1).zip (deleteIdxsFrom I k l2) = deleteIdxsFrom I k (l1.zip l2) := by
  induction l1 generalizing l2 k with
  | nil =>
    cases l2 with
    | nil => rfl
    | cons b t2 => cases h
  | cons a t1 ih =>
    cases l2 with
    | nil => cases h
    | cons b t2 =>
      have ht : t1.length = t2.length := Nat.succ_injective h
      rw [List.zip_cons_cons]
      by_cases hc : I.contains k
      · simp only [deleteIdxsFrom, if_pos hc]
        exact ih ht (k + 1)
      · simp only [deleteIdxsFrom, if_neg hc, List.zip_cons_cons]
        rw [ih ht (k + 1)]

theorem mem_of_mem_deleteIdxsFrom {α : Type} {I : List Nat} {l : List α} {k : Nat} {a : α}
    (h : a ∈ deleteIdxsFrom I k l) : a ∈ l := by
  induction l generalizing k with
  | nil => cases h
  | cons b t ih =>
    unfold deleteIdxsFrom at h
    by_cases hc : I.contains k
    · rw [if_pos hc] at h
      exact List.mem_cons_of_mem b (ih h)
    · rw [if_neg hc] at h
      rcases List.mem_cons.1 h with he | ht
      · exact he ▸ List.mem_cons_self b t
      · exact List.mem_cons_of_mem b (ih ht)

theorem mem_enumIdx {l : List Nat} {p : Nat × Nat} :
    p ∈ enumIdx l ↔ p.1 < l.length ∧ p.2 = l.getD p.1 0 := by
  unfold enumIdx
  rw [List.mem_map]
  constructor
  · rintro ⟨i, hi, rfl⟩
    exact ⟨List.mem_range.1 hi, rfl⟩
  · rintro ⟨h1, h2⟩
    refine ⟨p.1, List.mem_range.2 h1, ?_⟩
    cases p
    simp only at h2
    rw [h2]

theorem pairwise_fst_enumIdx (l : List Nat) :
    (enumIdx l).Pairwise (fun p q => p.1 < q.1) := by
  unfold enumIdx
  exact (List.pairwise_map).2 (List.pairwise_lt_range _)

theorem map_snd_enumIdx {β : Type} (l : List Nat) (f : Nat → β) :
    (enumIdx l).map (fun p => f p.2) = l.map f := by
  unfold enumIdx
  rw [List.map_map]
  exact map_getD_range_comp l 0 f

theorem map_fst_enumIdx (l : List Nat) : (enumIdx l).map Prod.fst = List.range l.length := by
  unfold enumIdx
  rw [List.map_map]
  have hc : (Prod.fst ∘ fun i => (i, l.getD i 0)) = (id : Nat → Nat) := by
    funext i
    rfl
  rw [hc, List.map_id]

theorem getD_set_self {α : Type} {l : List α} {i : Nat} (h : i < l.length) (v d : α) :
    (l.set i v).getD i d = v := by
  induction l generalizing i with
  | nil => cases h
  | cons a t ih =>
    cases i with
    | zero => rfl
    | succ m => exact ih (Nat.lt_of_succ_lt_succ h)

theorem getD_set_ne {α : Type} {l : List α} {i j : Nat} (h : i ≠ j) (v d : α) :
    (l.set i v).getD j d = l.getD j d := by
  induction l generalizing i j with
  | nil => rfl
  | cons a t ih =>
    cases i with
    | zero =>
      cases j with
      | zero => exact absurd rfl h
      | succ m => rfl
    | succ n =>
      cases j with
      | zero => rfl
      | succ m => exact ih (fun he => h (congrArg Nat.succ he))

theorem getD_of_get? {α : Type} {l : List α} {i : Nat} {a : α} (h : l.get? i = some a)
    (d : α) : l.getD i d = a := by
  induction l generalizing i with
  | nil => cases h
  | cons b t ih =>
    cases i with
    | zero =>
      have h' : b = a := by
        injection h
      rw [List.getD_cons_zero, h']
    | succ m => exact ih h

theorem lt_length_of_get?_eq_some {α : Type} {l : List α} {i : Nat} {a : α}
    (h : l.get? i = some a) : i < l.length := by
  induction l generalizing i with
  | nil => cases h
  | cons b t ih =>
    cases i with
    | zero => exact Nat.succ_pos _
    | succ m => exact Nat.succ_lt_succ (ih h)

theorem get?_eq_some_of_lt_length {α : Type} {l : List α} {i : Nat} (h : i < l.length) :
    ∃ a, l.get? i = some a := by
  induction l generalizing i with
  | nil => cases h
  | cons b t ih =>
    cases i with
    | zero => exact ⟨b, rfl⟩
    | succ m => exact ih (Nat.lt_of_succ_lt_succ h)

/-! ### Characterization of the live-point resolution loop -/

theorem resolveLiveAux_error {d lg : List Int} {lb : List Nat} {ps : List (Nat × Nat)}
    {lv em : List Nat} {tmm : List (FV × FV)} {e : Err}
    (h : resolveLiveAux d lb lg ps lv em tmm = .error e) :
    e = .livePointMissing ∨ e = .indexError := by
  induction ps generalizing lv em tmm with
  | nil => simp [resolveLiveAux] at h
  | cons p rest ih =>
    obtain ⟨i, lab⟩ := p
    simp only [resolveLiveAux] at h
    split at h
    · split at h
      · injection h with h'
        exact Or.inr h'.symm
      · exact ih h
    · injection h with h'
      exact Or.inl h'.symm

theorem resolveLiveAux_ok_live {d lg : List Int} {lb : List Nat} {ps : List (Nat × Nat)}
    {lv em lv' em' : List Nat} {tmm tmm' : List (FV × FV)}
    (h : resolveLiveAux d lb lg ps lv em tmm = .ok (lv', em', tmm')) :
    lv' = lv ++ ps.map (fun p => (thInds lb p.2).headI) := by
  induction ps generalizing lv em tmm with
  | nil =>
    simp only [resolveLiveAux] at h
    injection h with h'
    simp only [Prod.mk.injEq] at h'
    obtain ⟨h1, h2, h3⟩ := h'
    rw [← h1]
    simp
  | cons p rest ih =>
    obtain ⟨i, lab⟩ := p
    simp only [resolveLiveAux] at h
    split at h
    · split at h
      · cases h
      · rw [ih h, List.map_cons, List.append_assoc]
        rfl
    · cases h

theorem resolveLiveAux_ok_empt {d lg : List Int} {lb : List Nat} {ps : List (Nat × Nat)}
    {lv em lv' em' : List Nat} {tmm tmm' : List (FV × FV)}
    (h : resolveLiveAux d lb lg ps lv em tmm = .ok (lv', em', tmm')) :
    em' = em ++ (ps.filter (fun p => decide ((thInds lb p.2).length = 1))).map Prod.fst := by
  induction ps generalizing lv em tmm with
  | nil =>
    simp only [resolveLiveAux] at h
    injection h with h'
    simp only [Prod.mk.injEq] at h'
    obtain ⟨h1, h2, h3⟩ := h'
    rw [← h2]
    simp
  | cons p rest ih =>
    obtain ⟨i, lab⟩ := p
    simp only [resolveLiveAux] at h
    split at h
    · split at h
      · cases h
      · rw [ih h, List.filter_cons]
        by_cases hl : (thInds lb lab).length = 1
        · rw [if_pos hl, if_pos (decide_eq_true hl), List.map_cons, List.append_assoc]
          rfl
        · rw [if_neg hl, if_neg (fun hd => hl (of_decide_eq_true hd))]
    · cases h

theorem resolveLiveAux_ok_count {d lg : List Int} {lb : List Nat} {ps : List (Nat × Nat)}
    {lv em : List Nat} {tmm : List (FV × FV)} {out : List Nat × List Nat × List (FV × FV)}
    (h : resolveLiveAux d lb lg ps lv em tmm = .ok out) :
    ∀ p ∈ ps, d.count (lg.getD (thInds lb p.2).headI 0) = 1 := by
  induction ps generalizing lv em tmm with
  | nil => intro p hp; cases hp
  | cons q rest ih =>
    obtain ⟨i, lab⟩ := q
    simp only [resolveLiveAux] at h
    split at h
    · split at h
      · cases h
      · intro p hp
        rcases List.mem_cons.1 hp with rfl | hp'
        · assumption
        · exact ih h p hp'
    · cases h

theorem resolveLiveAux_ok_of_count {d lg : List Int} {lb : List Nat} {ps : List (Nat × Nat)}
    (lv em : List Nat) (tmm : List (FV × FV))
    (hc : ∀ p ∈ ps, d.count (lg.getD (thInds lb p.2).headI 0) = 1)
    (hr : ∀ p ∈ ps, p.1 < tmm.length) :
    ∃ out, resolveLiveAux d lb lg ps lv em tmm = .ok out := by
  induction ps generalizing lv em tmm with
  | nil => exact ⟨(lv, em, tmm), rfl⟩
  | cons q rest ih =>
    obtain ⟨i, lab⟩ := q
    have hcq := hc (i, lab) (List.mem_cons_self _ _)
    have hrq := hr (i, lab) (List.mem_cons_self _ _)
    obtain ⟨row, hrow⟩ := get?_eq_some_of_lt_length hrq
    simp only [resolveLiveAux, hcq, if_pos, hrow]
    apply ih
    · exact fun p hp => hc p (List.mem_cons_of_mem _ hp)
    · intro p hp
      rw [List.length_set]
      exact hr p (List.mem_cons_of_mem _ hp)

theorem resolveLiveAux_ok_length {d lg : List Int} {lb : List Nat} {ps : List (Nat × Nat)}
    {lv em lv' em' : List Nat} {tmm tmm' : List (FV × FV)}
    (h : resolveLiveAux d lb lg ps lv em tmm = .ok (lv', em', tmm')) :
    tmm'.length = tmm.length := by
  induction ps generalizing lv em tmm with
  | nil =>
    simp only [resolveLiveAux] at h
    injection h with h'
    simp only [Prod.mk.injEq] at h'
    obtain ⟨h1, h2, h3⟩ := h'
    rw [← h3]
  | cons q rest ih =>
    obtain ⟨i, lab⟩ := q
    simp only [resolveLiveAux] at h
    split at h
    · split at h
      · cases h
      · rw [ih h, List.length_set]
    · cases h

theorem resolveLiveAux_ok_tmm_not_mem {d lg : List Int} {lb : List Nat}
    {ps : List (Nat × Nat)} {lv em lv' em' : List Nat} {tmm tmm' : List (FV × FV)}
    (h : resolveLiveAux d lb lg ps lv em tmm = .ok (lv', em', tmm')) {j : Nat}
    (hj : j ∉ ps.map Prod.fst) (df : FV × FV) : tmm'.getD j df = tmm.getD j df := by
  induction ps generalizing lv em tmm with
  | nil =>
    simp only [resolveLiveAux] at h
    injection h with h'
    simp only [Prod.mk.injEq] at h'
    obtain ⟨h1, h2, h3⟩ := h'
    rw [← h3]
  | cons q rest ih =>
    obtain ⟨i, lab⟩ := q
    have hji : j ≠ i := by
      intro he
      exact hj (he ▸ List.mem_cons_self _ _)
    have hj' : j ∉ rest.map Prod.fst := fun hm => hj (List.mem_cons_of_mem _ hm)
    simp only [resolveLiveAux] at h
    split at h
    · split at h
      · cases h
      · rw [ih h hj', getD_set_ne (Ne.symm hji)]
    · cases h

theorem resolveLiveAux_ok_tmm_mem {d lg : List Int} {lb : List Nat}
    {ps : List (Nat × Nat)} {lv em lv' em' : List Nat} {tmm tmm' : List (FV × FV)}
    (h : resolveLiveAux d lb lg ps lv em tmm = .ok (lv', em', tmm'))
    (hnd : (ps.map Prod.fst).Nodup) {i lab : Nat} (hm : (i, lab) ∈ ps) (df : FV × FV) :
    tmm'.getD i df = (.fin (lg.getD (thInds lb lab).headI 0), (tmm.getD i df).2) := by
  induction ps generalizing lv em tmm with
  | nil => cases hm
  | cons q rest ih =>
    obtain ⟨i0, lab0⟩ := q
    have hnd' : (rest.map Prod.fst).Nodup := (List.nodup_cons.1 hnd).2
    have hni : i0 ∉ rest.map Prod.fst := (List.nodup_cons.1 hnd).1
    simp only [resolveLiveAux] at h
    split at h
    · rename_i hcnt
      split at h
      · cases h
      · rename_i row hrow
        rcases List.mem_cons.1 hm with he | hm'
        · injection he with he1 he2
          subst he1
          subst he2
          have hlen : i < tmm.length := lt_length_of_get?_eq_some hrow
          rw [resolveLiveAux_ok_tmm_not_mem h hni df, getD_set_self hlen,
            getD_of_get? hrow df]
        · have hii0 : i ≠ i0 := by
            intro he
            exact hni (he ▸ List.mem_map_of_mem Prod.fst hm')
          rw [ih h hnd' hm', getD_set_ne (Ne.symm hii0)]
    · cases h

theorem length_le_of_get?_eq_none {α : Type} {l : List α} {i : Nat}
    (h : l.get? i = none) : l.length ≤ i := by
  induction l generalizing i with
  | nil => exact Nat.zero_le i
  | cons b t ih =>
    cases i with
    | zero => cases h
    | succ m => exact Nat.succ_le_succ (ih h)

/-! ### Characterization of the thread-bound checks of the relabelling stage -/

theorem checkThreadBounds_ok {tmm : List (FV × FV)} {lb : List Nat} {lg : List Int}
    {ps : List (Nat × Nat)} {u : Unit}
    (h : checkThreadBounds tmm lb lg ps = .ok u) :
    ∀ p ∈ ps, ∃ row, tmm.get? p.1 = some row ∧ boundPass lb lg p.2 row := by
  induction ps with
  | nil => intro p hp; cases hp
  | cons q rest ih =>
    obtain ⟨i, lab⟩ := q
    simp only [checkThreadBounds] at h
    split at h
    · cases h
    · rename_i row hrow
      split at h
      · rename_i hcond
        intro p hp
        rcases List.mem_cons.1 hp with rfl | hp'
        · exact ⟨row, hrow, hcond⟩
        · exact ih h p hp'
      · cases h

theorem checkThreadBounds_fail {tmm : List (FV × FV)} {lb : List Nat} {lg : List Int}
    {ps : List (Nat × Nat)} (hp : ps.Pairwise (fun p q => p.1 < q.1))
    (hex : ∃ p ∈ ps, ∃ row, tmm.get? p.1 = some row ∧ ¬ boundPass lb lg p.2 row) :
    checkThreadBounds tmm lb lg ps = .error .threadBoundMismatch := by
  induction ps with
  | nil =>
    obtain ⟨p, hp', _⟩ := hex
    cases hp'
  | cons q rest ih =>
    obtain ⟨i, lab⟩ := q
    obtain ⟨hhd, htl⟩ := List.pairwise_cons.1 hp
    obtain ⟨p, hpm, row, hrow, hnot⟩ := hex
    simp only [checkThreadBounds]
    split
    · rename_i hg
      exfalso
      rcases List.mem_cons.1 hpm with rfl | hp'
      · rw [hg] at hrow
        cases hrow
      · have h1 : p.1 < tmm.length := lt_length_of_get?_eq_some hrow
        have h2 : tmm.length ≤ i := length_le_of_get?_eq_none hg
        have h3 : i < p.1 := hhd p hp'
        omega
    · rename_i row0 hg
      by_cases hcond : boundPass lb lg lab row0
      · rw [if_pos hcond]
        apply ih htl
        rcases List.mem_cons.1 hpm with rfl | hp'
        · exfalso
          rw [hg] at hrow
          injection hrow with he
          exact hnot (he ▸ hcond)
        · exact ⟨p, hp', row, hrow, hnot⟩
      · rw [if_neg hcond]

theorem checkThreadBounds_error {tmm : List (FV × FV)} {lb : List Nat} {lg : List Int}
    {ps : List (Nat × Nat)} {e : Err}
    (h : checkThreadBounds tmm lb lg ps = .error e) :
    e = .threadBoundMismatch ∨ e = .indexError := by
  induction ps with
  | nil => cases h
  | cons q rest ih =>
    obtain ⟨i, lab⟩ := q
    simp only [checkThreadBounds] at h
    split at h
    · injection h with h'
      exact Or.inr h'.symm
    · split at h
      · exact ih h
      · injection h with h'
        exact Or.inl h'.symm

/-! ### Shape and classification lemmas for the pipeline stages -/

theorem relabelRun_ok {r : Run} {empt : List Nat} {r' : Run}
    (h : relabelRun r empt = .ok r') :
    checkThreadBounds (deleteIdxs r.thread_min_max empt) r.thread_labels r.logl
        (enumIdx (uniqSorted r.thread_labels)) = .ok () ∧
    r' = { r with thread_min_max := deleteIdxs r.thread_min_max empt,
                  thread_labels := r.thread_labels.map
                    (fun lab => (uniqSorted r.thread_labels).indexOf lab) } := by
  simp only [relabelRun] at h
  split at h
  · cases h
  · rename_i u hchk
    injection h with h'
    exact ⟨hchk, h'.symm⟩

theorem relabelRun_error {r : Run} {empt : List Nat} {e : Err}
    (h : relabelRun r empt = .error e) :
    e = .threadBoundMismatch ∨ e = .indexError := by
  simp only [relabelRun] at h
  split at h
  · rename_i e' hchk
    injection h with h'
    exact h' ▸ checkThreadBounds_error hchk
  · cases h

theorem relabelRun_of_fail {r : Run} {empt : List Nat}
    (hex : ∃ p ∈ enumIdx (uniqSorted r.thread_labels), ∃ row,
      (deleteIdxs r.thread_min_max empt).get? p.1 = some row ∧
      ¬ boundPass r.thread_labels r.logl p.2 row) :
    relabelRun r empt = .error .threadBoundMismatch := by
  simp only [relabelRun]
  rw [checkThreadBounds_fail (pairwise_fst_enumIdx _) hex]

theorem relabelStage_error {r : Run} {empt : List Nat} {e : Err}
    (h : relabelStage r empt = .error e) :
    e = .threadBoundMismatch ∨ e = .indexError := by
  unfold relabelStage at h
  split at h
  · cases h
  · exact relabelRun_error h

theorem combine_threads_error {ths : List NsThread} {b : Bool} {e : Err}
    (h : combine_threads ths b = .error e) : e = .orphanBirthPoint := by
  simp only [combine_threads] at h
  split at h
  · injection h with h'
    exact h'.symm
  · cases h

theorem combine_threads_ok_logl {ths : List NsThread} {b : Bool} {r : Run}
    (h : combine_threads ths b = .ok r) :
    r.logl = ((poolPts ths).insertionSort (fun a b => a.logl ≤ b.logl)).map
      (fun p => p.logl) := by
  simp only [combine_threads] at h
  split at h
  · cases h
  · injection h with h'
    rw [← h']

/-! ### Point-multiset bookkeeping for the thread decomposition and merge -/

theorem map_logl_threadPts (k : Nat) (th : NsThread) :
    (threadPts k th).map (fun p => p.logl) = th.logl := by
  unfold threadPts
  rw [List.map_map]
  exact map_getD_range_comp th.logl 0 (fun x => x) |>.trans (List.map_id th.logl)

theorem map_flatten' {α β : Type} (f : α → β) (L : List (List α)) :
    (L.flatten).map f = (L.map (fun l => l.map f)).flatten := by
  induction L with
  | nil => rfl
  | cons l t ih => rw [List.flatten_cons, List.map_append, ih, List.map_cons, List.flatten_cons]

theorem poolPts_logl (ths : List NsThread) :
    (poolPts ths).map (fun p => p.logl) = (ths.map (fun th => th.logl)).flatten := by
  unfold poolPts
  rw [map_flatten', List.map_map]
  have hc : ((fun l => List.map (fun p => MPt.logl p) l) ∘ fun k =>
      threadPts k (ths.getD k ⟨[], [], .ninf, .ninf⟩)) =
      (fun k => (ths.getD k ⟨[], [], .ninf, .ninf⟩).logl) := by
    funext k
    exact map_logl_threadPts k _
  rw [hc, map_getD_range_comp ths ⟨[], [], .ninf, .ninf⟩ (fun th => th.logl)]

theorem combine_threads_ok_perm {ths : List NsThread} {b : Bool} {r : Run}
    (h : combine_threads ths b = .ok r) :
    r.logl.Perm ((ths.map (fun th => th.logl)).flatten) := by
  rw [combine_threads_ok_logl h, ← poolPts_logl]
  exact (List.perm_insertionSort _ _).map _

theorem get_run_threads_logl (r : Run) :
    (get_run_threads r).map (fun th => th.logl) =
      (uniqSorted r.thread_labels).map (fun u => thPick r.thread_labels r.logl u) := by
  unfold get_run_threads
  rw [List.map_map]
  exact map_snd_enumIdx (uniqSorted r.thread_labels) (thPick r.thread_labels r.logl)

theorem flatten_filter_perm {α : Type} {us : List Nat} {z : List (Nat × α)}
    (hnd : us.Nodup) (hmem : ∀ q ∈ z, q.1 ∈ us) :
    ((us.map (fun u => z.filter (fun q => q.1 == u))).flatten).Perm z := by
  induction us generalizing z with
  | nil =>
    cases z with
    | nil => exact List.Perm.refl _
    | cons q t => cases hmem q (List.mem_cons_self q t)
  | cons u rest ih =>
    rw [List.map_cons, List.flatten_cons]
    obtain ⟨hnu, hnd'⟩ := List.nodup_cons.1 hnd
    have hstep : ∀ v ∈ rest, z.filter (fun q => q.1 == v) =
        (z.filter (fun q => !(q.1 == u))).filter (fun q => q.1 == v) := by
      intro v hv
      rw [List.filter_filter]
      apply List.filter_congr
      intro q hq
      by_cases hqv : q.1 = v
      · have hvu : v ≠ u := fun he => hnu (he ▸ hv)
        simp [hqv, hvu]
      · simp [hqv]
    have hrw : rest.map (fun u => z.filter (fun q => q.1 == u)) =
        rest.map (fun v => (z.filter (fun q => !(q.1 == u))).filter (fun q => q.1 == v)) :=
      List.map_congr_left hstep
    rw [hrw]
    have hmem' : ∀ q ∈ z.filter (fun q => !(q.1 == u)), q.1 ∈ rest := by
      intro q hq
      obtain ⟨hqz, hqp⟩ := List.mem_filter.1 hq
      have hqc : q.1 ∈ u :: rest := hmem q hqz
      rcases List.mem_cons.1 hqc with he | hr
      · exfalso
        rw [he] at hqp
        simp at hqp
      · exact hr
    have hperm := ih hnd' hmem'
    exact List.Perm.trans (List.Perm.append_left _ hperm)
      (List.filter_append_perm (fun q => q.1 == u) z)

theorem flatten_thPick_perm {α : Type} {labels : List Nat} {xs : List α}
    (hlen : labels.length = xs.length) :
    (((uniqSorted labels).map (fun u => thPick labels xs u)).flatten).Perm xs := by
  unfold thPick
  have hmap : (uniqSorted labels).map
      (fun u => ((labels.zip xs).filter (fun q => q.1 == u)).map (fun q => q.2)) =
      ((uniqSorted labels).map
        (fun u => (labels.zip xs).filter (fun q => q.1 == u))).map
          (fun l => l.map (fun q => q.2)) := by
    rw [List.map_map]
    rfl
  rw [hmap, ← map_flatten']
  have hperm : (((uniqSorted labels).map
      (fun u => (labels.zip xs).filter (fun q => q.1 == u))).flatten).Perm
        (labels.zip xs) := by
    apply flatten_filter_perm (nodup_uniqSorted labels)
    intro q hq
    exact mem_uniqSorted.2 (List.of_mem_zip hq).1
  have := hperm.map (fun q : Nat × α => q.2)
  rwa [List.map_snd_zip _ _ (le_of_eq hlen.symm)] at this

theorem strictAscending_iff {l : List Int} :
    strictAscending l = true ↔ List.Chain' (· < ·) l := by
  induction l with
  | nil => simp [strictAscending]
  | cons a t ih =>
    cases t with
    | nil => simp [strictAscending]
    | cons b t2 =>
      rw [List.chain'_cons, ← ih]
      simp [strictAscending]

/-! ### Except helpers and pipeline case analysis -/

theorem except_map_ok {ε α β : Type} {f : α → β} {x : Except ε α} {y : β}
    (h : x.map f = .ok y) : ∃ a, x = .ok a ∧ y = f a := by
  cases x with
  | error e => cases h
  | ok a =>
    refine ⟨a, rfl, ?_⟩
    injection h with h'
    exact h'.symm

theorem except_map_error {ε α β : Type} {f : α → β} {x : Except ε α} {e : ε}
    (h : x.map f = .error e) : x = .error e := by
  cases x with
  | error e' =>
    injection h with h'
    rw [h']
  | ok a => cases h

theorem combine_state_error_kinds {init dyn : Run} {rn : Nat} {e : Err}
    (hpre : init.logl.take rn = dyn.logl.take rn)
    (h : combine_resumed_dyn_run_state init dyn rn = .error e) :
    e = .livePointMissing ∨ e = .indexError ∨ e = .threadBoundMismatch ∨
      e = .orphanBirthPoint := by
  unfold combine_resumed_dyn_run_state at h
  rw [if_pos hpre] at h
  simp only [] at h
  split at h
  · rename_i e' hres
    injection h with h'
    subst h'
    unfold resolveLive at hres
    rcases resolveLiveAux_error hres with h1 | h2
    · exact Or.inl h1
    · exact Or.inr (Or.inl h2)
  · split at h
    · rename_i e' hrel
      injection h with h'
      subst h'
      rcases relabelStage_error hrel with h1 | h2
      · exact Or.inr (Or.inr (Or.inl h1))
      · exact Or.inr (Or.inl h2)
    · split at h
      · rename_i e' hcomb
        injection h with h'
        subst h'
        exact Or.inr (Or.inr (Or.inr (combine_threads_error hcomb)))
      · cases h

theorem process_ok_elim {init dyn : Run} {dg : Int} {info : DynInfo} {run : Run}
    (h : process_dypolychord_run init dyn dg info = .ok run) :
    check_ns_run run = true ∧
      ((dg = 0 ∧ ∃ r0, combine_ns_runs init dyn = .ok r0 ∧
          run = { r0 with nlike := init.nlike + dyn.nlike }) ∨
       (dg = 1 ∧ ∃ r1, combine_resumed_dyn_run init dyn info.resume_ndead = .ok r1 ∧
          run = { r1 with nlike := init.nlike + dyn.nlike - info.resume_nlike })) := by
  unfold process_dypolychord_run at h
  split at h
  · rename_i hdg
    split at h
    · rename_i hall
      split at h
      · cases h
      · rename_i run0 hmatch
        split at h
        · rename_i hchk
          injection h with h'
          subst h'
          refine ⟨hchk, ?_⟩
          by_cases hdg0 : dg = 0
          · rw [if_pos hdg0] at hmatch
            obtain ⟨r0, hr0, hy⟩ := except_map_ok hmatch
            exact Or.inl ⟨hdg0, r0, hr0, hy⟩
          · rw [if_neg hdg0] at hmatch
            obtain ⟨r1, hr1, hy⟩ := except_map_ok hmatch
            rcases hdg with hd | hd
            · exact absurd hd hdg0
            · exact Or.inr ⟨hd, r1, hr1, hy⟩
        · cases h
    · cases h
  · cases h

/-! ### Claim theorems -/

/-- C1: `combine_resumed_dyn_run` fails with the duplicate-prefix
ConsistencyError exactly when the first `resume_ndead` logl values of `init`
and `dyn` are not identical position-for-position; when they agree no such
error is raised. -/
theorem claim1_prefix_consistency (init dyn : Run) (resume_ndead : Nat) :
    (init.logl.take resume_ndead ≠ dyn.logl.take resume_ndead →
      combine_resumed_dyn_run init dyn resume_ndead = .error .prefixMismatch) ∧
    (init.logl.take resume_ndead = dyn.logl.take resume_ndead →
      combine_resumed_dyn_run init dyn resume_ndead ≠ .error .prefixMismatch) := by
  constructor
  · intro hne
    unfold combine_resumed_dyn_run combine_resumed_dyn_run_state
    rw [if_neg hne]
    rfl
  · intro heq hcontra
    have hstate : combine_resumed_dyn_run_state init dyn resume_ndead =
        .error .prefixMismatch := except_map_error hcontra
    rcases combine_state_error_kinds heq hstate with h | h | h | h <;> cases h

/-- C1 witness: a concrete mismatching pair fails with the prefix error, and
a concrete matching pair does not. -/
theorem claim1_prefix_consistency_witness :
    combine_resumed_dyn_run cI6 cD6 2 = .error .prefixMismatch ∧
    combine_resumed_dyn_run cInit1 cDyn1 2 ≠ .error .prefixMismatch :=
  ⟨(claim1_prefix_consistency cI6 cD6 2).1 (by decide),
   (claim1_prefix_consistency cInit1 cDyn1 2).2 (by decide)⟩

/-- C5: every run returned by the combination pipeline has strictly
ascending logl values with no duplicates (enforced by the final
`check_ns_run` validation). -/
theorem claim5_strict_ascending (init dyn : Run) (dynamic_goal : Int) (dyn_info : DynInfo)
    (run : Run) (h : process_dypolychord_run init dyn dynamic_goal dyn_info = .ok run) :
    List.Chain' (· < ·) run.logl ∧ run.logl.Nodup := by
  have hchk := (process_ok_elim h).1
  unfold check_ns_run at hchk
  simp only [Bool.and_eq_true] at hchk
  have hch : List.Chain' (· < ·) run.logl := strictAscending_iff.1 hchk.1.1.1
  refine ⟨hch, ?_⟩
  have hpw : run.logl.Pairwise (· < ·) := List.chain'_iff_pairwise.1 hch
  exact List.Pairwise.imp (fun hlt => ne_of_lt hlt) hpw

/-- C5 witness: the pipeline succeeds on `cInit1`/`cDyn1` with the resumed
strategy and the returned run is strictly ascending. -/
theorem claim5_strict_ascending_witness :
    List.Chain' (· < ·) w1run.logl ∧ w1run.logl.Nodup :=
  claim5_strict_ascending cInit1 cDyn1 1 ⟨2, 30⟩ w1run (by decide)

/-- C7: the returned run's `output.nlike` is `init.nlike + dyn.nlike` for
`dynamic_goal = 0`, and `init.nlike + dyn.nlike - resume_nlike` for
`dynamic_goal = 1`. -/
theorem claim7_nlike (init dyn : Run) (dyn_info : DynInfo) (run0 run1 : Run) :
    (process_dypolychord_run init dyn 0 dyn_info = .ok run0 →
      run0.nlike = init.nlike + dyn.nlike) ∧
    (process_dypolychord_run init dyn 1 dyn_info = .ok run1 →
      run1.nlike = init.nlike + dyn.nlike - dyn_info.resume_nlike) := by
  constructor
  · intro h
    rcases (process_ok_elim h).2 with ⟨_, r0, _, hy⟩ | ⟨hd, _⟩
    · rw [hy]
    · cases hd
  · intro h
    rcases (process_ok_elim h).2 with ⟨hd, _⟩ | ⟨_, r1, _, hy⟩
    · cases hd
    · rw [hy]

/-- C7 witness: concrete successful runs for both strategies with the stated
`nlike` values. -/
theorem claim7_nlike_witness :
    w2run.nlike = cInit2.nlike + cDyn2.nlike ∧
    w1run.nlike = cInit1.nlike + cDyn1.nlike - (⟨2, 30⟩ : DynInfo).resume_nlike :=
  ⟨(claim7_nlike cInit2 cDyn2 ⟨0, 0⟩ w2run w1run).1 (by decide),
   (claim7_nlike cInit1 cDyn1 ⟨2, 30⟩ w2run w1run).2 (by decide)⟩

/-- C8: any `dynamic_goal` other than 0 or 1 fails with ConfigurationError,
independently of the run data. -/
theorem claim8_configuration_error (init dyn : Run) (dynamic_goal : Int)
    (dyn_info : DynInfo) (h0 : dynamic_goal ≠ 0) (h1 : dynamic_goal ≠ 1) :
    process_dypolychord_run init dyn dynamic_goal dyn_info = .error .configurationError := by
  unfold process_dypolychord_run
  rw [if_neg]
  rintro (h | h)
  · exact h0 h
  · exact h1 h

/-- C8 witness: `dynamic_goal = 2` is rejected on concrete data. -/
theorem claim8_configuration_error_witness :
    process_dypolychord_run cInit1 cDyn1 2 ⟨2, 30⟩ = .error .configurationError :=
  claim8_configuration_error cInit1 cDyn1 2 ⟨2, 30⟩ (by decide) (by decide)

/-- C10: if any `init` thread has a birth bound other than negative
infinity, `process_dypolychord_run` fails before any combination work, for
both supported `dynamic_goal` values and independently of `dyn`. -/
theorem claim10_seed_thread_check (init dyn : Run) (dynamic_goal : Int)
    (dyn_info : DynInfo) (hdg : dynamic_goal = 0 ∨ dynamic_goal = 1)
    (hbad : ∃ row ∈ init.thread_min_max, row.1 ≠ FV.ninf) :
    process_dypolychord_run init dyn dynamic_goal dyn_info = .error .seedBirthError := by
  unfold process_dypolychord_run
  rw [if_pos hdg, if_neg]
  intro hall
  obtain ⟨row, hm, hne⟩ := hbad
  exact hne (of_decide_eq_true (List.all_eq_true.1 hall row hm))

/-- C10 witness: an init run with a finite birth bound is rejected for both
strategies. -/
theorem claim10_seed_thread_check_witness :
    process_dypolychord_run cBad cD6 0 ⟨0, 0⟩ = .error .seedBirthError ∧
    process_dypolychord_run cBad cD6 1 ⟨0, 0⟩ = .error .seedBirthError :=
  ⟨claim10_seed_thread_check cBad cD6 0 ⟨0, 0⟩ (Or.inl rfl)
      ⟨(.fin 5, .fin 5), by decide, by decide⟩,
   claim10_seed_thread_check cBad cD6 1 ⟨0, 0⟩ (Or.inr rfl)
      ⟨(.fin 5, .fin 5), by decide, by decide⟩⟩

/-! ### Helpers for relabelling and live-point deletion -/

theorem getD_mem {α : Type} {l : List α} {n : Nat} (h : n < l.length) (d : α) :
    l.getD n d ∈ l := by
  induction l generalizing n with
  | nil => cases h
  | cons a t ih =>
    cases n with
    | zero => exact List.mem_cons_self a t
    | succ m => exact List.mem_cons_of_mem a (ih (Nat.lt_of_succ_lt_succ h))

theorem getD_range {n i d : Nat} (h : i < n) : (List.range n).getD i d = i := by
  have hlen : i < (List.range n).length := by simpa using h
  rw [List.getD_eq_getElem _ _ hlen]
  exact List.getElem_range _ hlen

theorem getD_append_length {α : Type} (l1 : List α) (a : α) (l2 : List α) (d : α) :
    (l1 ++ a :: l2).getD l1.length d = a := by
  induction l1 with
  | nil => rfl
  | cons b t ih => exact ih

theorem headI_cons_tail {α : Type} [Inhabited α] {l : List α} (h : l ≠ []) :
    l = l.headI :: l.tail := by
  cases l with
  | nil => exact absurd rfl h
  | cons a t => rfl

theorem mem_liveOf {labels : List Nat} {p : Nat} :
    p ∈ liveOf labels ↔ ∃ lab ∈ labels, p = labels.indexOf lab := by
  unfold liveOf
  rw [List.mem_map]
  constructor
  · rintro ⟨u, hu, he⟩
    have hm : u ∈ labels := mem_uniqSorted.1 hu
    refine ⟨u, hm, ?_⟩
    rw [← he]
    unfold thInds
    rw [headI_thIndsFrom hm 0, Nat.zero_add]
  · rintro ⟨lab, hm, rfl⟩
    refine ⟨lab, mem_uniqSorted.2 hm, ?_⟩
    unfold thInds
    rw [headI_thIndsFrom hm 0, Nat.zero_add]

theorem mem_liveOf_iff_first {labels : List Nat} {p : Nat} (hp : p < labels.length) :
    p ∈ liveOf labels ↔ labels.indexOf (labels.getD p 0) = p := by
  rw [mem_liveOf]
  constructor
  · rintro ⟨lab, hm, rfl⟩
    rw [getD_indexOf hm]
  · intro h
    exact ⟨labels.getD p 0, getD_mem hp 0, h.symm⟩

theorem uniq_indexOf_inj {labels : List Nat} {x lab : Nat} (hx : x ∈ labels)
    (hlab : lab ∈ labels) :
    ((uniqSorted labels).indexOf x = (uniqSorted labels).indexOf lab ↔ x = lab) := by
  constructor
  · intro h
    have h1 := getD_indexOf (mem_uniqSorted.2 hx) 0
    have h2 := getD_indexOf (mem_uniqSorted.2 hlab) 0
    rw [← h1, ← h2, h]
  · intro h
    rw [h]

theorem thPick_map_relabel {α : Type} {f : Nat → Nat} {i lab : Nat} :
    ∀ (labels : List Nat) (xs : List α),
      (∀ x ∈ labels, (f x = i ↔ x = lab)) →
      thPick (labels.map f) xs i = thPick labels xs lab
  | [], _, _ => rfl
  | _ :: _, [], _ => rfl
  | l0 :: lt, x :: xt, hf => by
    unfold thPick
    rw [List.map_cons, List.zip_cons_cons, List.zip_cons_cons, List.filter_cons,
      List.filter_cons]
    have hfl := hf l0 (List.mem_cons_self l0 lt)
    have ihr := thPick_map_relabel lt xt (fun y hy => hf y (List.mem_cons_of_mem l0 hy))
    unfold thPick at ihr
    by_cases hl : l0 = lab
    · rw [if_pos (by simpa using hfl.2 hl), if_pos (by simpa using hl),
        List.map_cons, List.map_cons, ihr]
    · have hne : ¬ (f l0 = i) := fun hh => hl (hfl.1 hh)
      rw [if_neg (by simpa using hne), if_neg (by simpa using hl), ihr]

theorem thInds_map_relabel {labels : List Nat} {f : Nat → Nat} {i lab : Nat}
    (hf : ∀ x ∈ labels, (f x = i ↔ x = lab)) :
    thInds (labels.map f) i = thInds labels lab :=
  thIndsFrom_map f hf 0

theorem filter_delete_heads {α : Type} (z : List (Nat × α)) (lab : Nat) :
    ∀ (pre suf : List (Nat × α)), z = pre ++ suf →
      (deleteIdxsFrom (liveOf (z.map Prod.fst)) pre.length suf).filter
          (fun q => q.1 == lab) =
        if lab ∈ pre.map Prod.fst then suf.filter (fun q => q.1 == lab)
        else (suf.filter (fun q => q.1 == lab)).tail
  | pre, [], _ => by
    by_cases hm : lab ∈ pre.map Prod.fst
    · rw [if_pos hm]
      rfl
    · rw [if_neg hm]
      rfl
  | pre, (l, x) :: rest, hz => by
    have hk : (z.map Prod.fst).getD pre.length 0 = l := by
      rw [hz, List.map_append, List.map_cons]
      have hg := getD_append_length (pre.map Prod.fst) l (rest.map Prod.fst) 0
      rwa [List.length_map] at hg
    have hklen : pre.length < (z.map Prod.fst).length := by
      rw [hz]
      simp
    have hkey : pre.length ∈ liveOf (z.map Prod.fst) ↔ l ∉ pre.map Prod.fst := by
      rw [mem_liveOf_iff_first hklen, hk]
      constructor
      · intro hidx hmem
        have hlt : (z.map Prod.fst).indexOf l < (pre.map Prod.fst).length := by
          rw [hz, List.map_append, List.indexOf_append_of_mem hmem]
          exact List.indexOf_lt_length.2 hmem
        rw [hidx, List.length_map] at hlt
        exact absurd hlt (lt_irrefl _)
      · intro hnm
        rw [hz, List.map_append, List.map_cons, List.indexOf_append_of_not_mem hnm,
          List.indexOf_cons_self]
        simp
    have hz' : z = (pre ++ [(l, x)]) ++ rest := by
      rw [hz, List.append_assoc]
      rfl
    have ih := filter_delete_heads z lab (pre ++ [(l, x)]) rest hz'
    have hlen' : (pre ++ [(l, x)]).length = pre.length + 1 := by simp
    rw [hlen'] at ih
    have hfsts : (pre ++ [(l, x)]).map Prod.fst = pre.map Prod.fst ++ [l] := by
      rw [List.map_append]
      rfl
    rw [hfsts] at ih
    unfold deleteIdxsFrom
    by_cases hc : l ∈ pre.map Prod.fst
    · have hnl : pre.length ∉ liveOf (z.map Prod.fst) := fun hm => (hkey.1 hm) hc
      rw [if_neg (fun hct => hnl (List.elem_iff.1 hct)), List.filter_cons]
      by_cases hll : l = lab
      · have hmlab : lab ∈ pre.map Prod.fst := hll ▸ hc
        rw [if_pos (beq_iff_eq.mpr hll), ih, if_pos (List.mem_append_left _ hmlab),
          if_pos hmlab, List.filter_cons, if_pos (beq_iff_eq.mpr hll)]
      · have hne : ¬ ((l : Nat) == lab) = true := fun hb => hll (beq_iff_eq.mp hb)
        rw [if_neg hne, ih]
        by_cases hm : lab ∈ pre.map Prod.fst
        · rw [if_pos (List.mem_append_left _ hm), if_pos hm, List.filter_cons, if_neg hne]
        · have hm' : lab ∉ pre.map Prod.fst ++ [l] := by
            rw [List.mem_append, List.mem_singleton]
            rintro (hh | hh)
            · exact hm hh
            · exact hll hh.symm
          rw [if_neg hm', if_neg hm, List.filter_cons, if_neg hne]
    · have hl : pre.length ∈ liveOf (z.map Prod.fst) := hkey.2 hc
      rw [if_pos (List.elem_iff.2 hl), ih]
      by_cases hll : l = lab
      · have hnlab : lab ∉ pre.map Prod.fst := hll ▸ hc
        have hmlab' : lab ∈ pre.map Prod.fst ++ [l] := by
          rw [List.mem_append, List.mem_singleton]
          exact Or.inr hll.symm
        rw [if_pos hmlab', if_neg hnlab, List.filter_cons, if_pos (beq_iff_eq.mpr hll),
          List.tail_cons]
      · have hne : ¬ ((l : Nat) == lab) = true := fun hb => hll (beq_iff_eq.mp hb)
        by_cases hm : lab ∈ pre.map Prod.fst
        · rw [if_pos (List.mem_append_left _ hm), if_pos hm, List.filter_cons, if_neg hne]
        · have hm' : lab ∉ pre.map Prod.fst ++ [l] := by
            rw [List.mem_append, List.mem_singleton]
            rintro (hh | hh)
            · exact hm hh
            · exact hll hh.symm
          rw [if_neg hm', if_neg hm, List.filter_cons, if_neg hne]

theorem filter_delete_heads_nil {α : Type} (z : List (Nat × α)) (lab : Nat) :
    (deleteIdxs z (liveOf (z.map Prod.fst))).filter (fun q => q.1 == lab) =
      (z.filter (fun q => q.1 == lab)).tail := by
  have h := filter_delete_heads z lab [] z rfl
  rw [if_neg (by simp)] at h
  exact h

theorem thPick_delete_live {α : Type} {labels : List Nat} {xs : List α}
    (hlen : labels.length = xs.length) (lab : Nat) :
    thPick (deleteIdxs labels (liveOf labels)) (deleteIdxs xs (liveOf labels)) lab =
      (thPick labels xs lab).tail := by
  unfold thPick deleteIdxs
  rw [zip_deleteIdxsFrom hlen]
  have hfst : (labels.zip xs).map Prod.fst = labels := List.map_fst_zip _ _ (le_of_eq hlen)
  have h := filter_delete_heads_nil (labels.zip xs) lab
  unfold deleteIdxs at h
  rw [hfst] at h
  rw [h, List.map_tail]

theorem resolveLiveAux_error_of_inrange {d lg : List Int} {lb : List Nat}
    {ps : List (Nat × Nat)} {lv em : List Nat} {tmm : List (FV × FV)} {e : Err}
    (hr : ∀ p ∈ ps, p.1 < tmm.length)
    (h : resolveLiveAux d lb lg ps lv em tmm = .error e) : e = .livePointMissing := by
  induction ps generalizing lv em tmm with
  | nil => simp [resolveLiveAux] at h
  | cons q rest ih =>
    obtain ⟨i, lab⟩ := q
    simp only [resolveLiveAux] at h
    split at h
    · split at h
      · rename_i hnone
        obtain ⟨row, hrow⟩ := get?_eq_some_of_lt_length (hr (i, lab) (List.mem_cons_self _ _))
        rw [hnone] at hrow
        cases hrow
      · refine ih (fun p hp => ?_) h
        rw [List.length_set]
        exact hr p (List.mem_cons_of_mem _ hp)
    · injection h with h'
      exact h'.symm

/-- C2 counterexample: on `cInitA`/`cDynA` with `resume_ndead = 1`, thread 0
vanishes during trimming, so the loop's enumeration index no longer agrees
with the thread label: the pipeline succeeds, the surviving thread 1's first
remaining point has logl 2, yet thread 1's birth bound is left at negative
infinity (the logl was written into thread 0's row instead).  This refutes
the claim that the surviving thread's own `birth_bound` is set to its live
point's logl. -/
theorem claim2_live_points_counterexample :
    (combine_resumed_dyn_run_state cInitA cDynA 1).map
        (fun p => (p.1.thread_min_max.getD 1 (.ninf, .ninf)).1) = .ok .ninf ∧
    (trimRun cInitA 1).thread_labels = [1, 1] ∧
    (trimRun cInitA 1).logl.getD (thInds (trimRun cInitA 1).thread_labels 1).headI 0 = 2 ∧
    FV.ninf ≠ FV.fin 2 :=
  ⟨by decide, by decide, by decide, by decide⟩

/-- C2 (amended): provided every thread of the run still has a point after
trimming — the trimmed thread labels are exactly `0..T-1` where `T` is the
number of `thread_min_max` rows — the live-point resolution stage of
`combine_resumed_dyn_run` fails with the ConsistencyError exactly when some
thread's first remaining logl does not occur exactly once in `dyn`; and on
success it sets each thread's birth bound to that logl, marks exactly the
single-point threads as empty, and removes each thread's first remaining
point from the parallel arrays. -/
theorem claim2_amended_live_points (dynLogl : List Int) (labels : List Nat)
    (logl : List Int) (tmm : List (FV × FV)) (live empt : List Nat)
    (tmm' : List (FV × FV))
    (hWF : uniqSorted labels = List.range tmm.length)
    (hlen : labels.length = logl.length) :
    ((∃ lab ∈ labels, dynLogl.count (logl.getD (thInds labels lab).headI 0) ≠ 1) ↔
        resolveLive dynLogl labels logl tmm = .error .livePointMissing) ∧
    (resolveLive dynLogl labels logl tmm = .ok (live, empt, tmm') →
      (∀ lab ∈ labels,
          tmm'.getD lab (.ninf, .ninf) =
            (.fin (logl.getD (thInds labels lab).headI 0),
              (tmm.getD lab (.ninf, .ninf)).2)) ∧
      (∀ lab : Nat, lab ∈ empt ↔ lab ∈ labels ∧ labels.count lab = 1) ∧
      (∀ lab ∈ labels,
          thPick (deleteIdxs labels live) (deleteIdxs logl live) lab =
            (thPick labels logl lab).tail)) := by
  have hus_len : (uniqSorted labels).length = tmm.length := by
    rw [hWF, List.length_range]
  have hmem_lt : ∀ {lab : Nat}, lab ∈ labels ↔ lab < tmm.length := by
    intro lab
    constructor
    · intro hm
      have hm2 := mem_uniqSorted.2 hm
      rw [hWF] at hm2
      exact List.mem_range.1 hm2
    · intro hlt
      apply mem_uniqSorted.1
      rw [hWF]
      exact List.mem_range.2 hlt
  have hpair : ∀ {lab : Nat}, lab < tmm.length →
      (lab, lab) ∈ enumIdx (uniqSorted labels) := by
    intro lab hl
    apply mem_enumIdx.2
    refine ⟨by rw [hus_len]; exact hl, ?_⟩
    rw [hWF]
    exact (getD_range hl).symm
  have hfst_nodup : ((enumIdx (uniqSorted labels)).map Prod.fst).Nodup := by
    rw [map_fst_enumIdx]
    exact List.nodup_range _
  have hinrange : ∀ p ∈ enumIdx (uniqSorted labels), p.1 < tmm.length := by
    intro p hp
    have h1 := (mem_enumIdx.1 hp).1
    rw [hus_len] at h1
    exact h1
  have hsnd_mem : ∀ p ∈ enumIdx (uniqSorted labels), p.2 ∈ labels := by
    intro p hp
    obtain ⟨h1, h2⟩ := mem_enumIdx.1 hp
    rw [h2]
    exact mem_uniqSorted.1 (getD_mem h1 0)
  constructor
  · constructor
    · rintro ⟨lab, hlab, hcnt⟩
      cases hres : resolveLive dynLogl labels logl tmm with
      | ok out =>
        unfold resolveLive at hres
        exact absurd (resolveLiveAux_ok_count hres (lab, lab)
          (hpair (hmem_lt.1 hlab))) hcnt
      | error e =>
        unfold resolveLive at hres
        have he := resolveLiveAux_error_of_inrange hinrange hres
        rw [he]
    · intro herr
      by_contra hno
      push_neg at hno
      obtain ⟨out, hout⟩ := @resolveLiveAux_ok_of_count dynLogl logl labels
        (enumIdx (uniqSorted labels)) [] [] tmm
        (fun p hp => hno p.2 (hsnd_mem p hp)) hinrange
      unfold resolveLive at herr
      rw [hout] at herr
      cases herr
  · intro hok
    unfold resolveLive at hok
    refine ⟨?_, ?_, ?_⟩
    · intro lab hlab
      exact resolveLiveAux_ok_tmm_mem hok hfst_nodup (hpair (hmem_lt.1 hlab)) _
    · have hempt := resolveLiveAux_ok_empt hok
      rw [List.nil_append] at hempt
      intro lab
      rw [hempt, List.mem_map]
      constructor
      · rintro ⟨p, hpf, hp1⟩
        obtain ⟨hpe, hpred⟩ := List.mem_filter.1 hpf
        obtain ⟨hlt', hgd⟩ := mem_enumIdx.1 hpe
        have hlt'' : p.1 < tmm.length := by
          rw [← hus_len]
          exact hlt'
        have hp2 : p.2 = p.1 := by
          rw [hgd, hWF]
          exact getD_range hlt''
        have hlen1 : (thInds labels p.2).length = 1 := of_decide_eq_true hpred
        rw [hp2, hp1] at hlen1
        refine ⟨hmem_lt.2 (hp1 ▸ hlt''), ?_⟩
        unfold thInds at hlen1
        rw [length_thIndsFrom] at hlen1
        exact hlen1
      · rintro ⟨hlab, hcnt⟩
        refine ⟨(lab, lab), ?_, rfl⟩
        apply List.mem_filter.2
        refine ⟨hpair (hmem_lt.1 hlab), ?_⟩
        apply decide_eq_true
        unfold thInds
        rw [length_thIndsFrom]
        exact hcnt
    · have hlive := resolveLiveAux_ok_live hok
      rw [List.nil_append] at hlive
      have hlive' : live = liveOf labels := by
        rw [hlive]
        exact map_snd_enumIdx (uniqSorted labels) (fun u => (thInds labels u).headI)
      intro lab hlab
      rw [hlive']
      exact thPick_delete_live hlen lab

/-- C2 witness: on a trimmed run whose two threads both survive, the stage
succeeds, writes each thread's live logl into its own birth bound, marks no
thread empty, and drops exactly each thread's first remaining point. -/
theorem claim2_amended_live_points_witness :
    ([(.fin 10, .fin 30), (.fin 20, .fin 40)] : List (FV × FV)).getD 0 (.ninf, .ninf) =
        (.fin (([10, 20, 30, 40] : List Int).getD
          (thInds [0, 1, 0, 1] 0).headI 0),
          (([(.ninf, .fin 30), (.ninf, .fin 40)] : List (FV × FV)).getD 0 (.ninf, .ninf)).2) ∧
    ¬ (0 ∈ ([] : List Nat)) ∧
    thPick (deleteIdxs [0, 1, 0, 1] [0, 1]) (deleteIdxs ([10, 20, 30, 40] : List Int) [0, 1]) 0 =
      (thPick [0, 1, 0, 1] ([10, 20, 30, 40] : List Int) 0).tail := by
  have h := (claim2_amended_live_points [10, 20, 99] [0, 1, 0, 1] [10, 20, 30, 40]
    [(.ninf, .fin 30), (.ninf, .fin 40)] [0, 1] []
    [(.fin 10, .fin 30), (.fin 20, .fin 40)] (by decide) (by decide)).2 (by decide)
  refine ⟨h.1 0 (by decide), ?_, h.2.2 0 (by decide)⟩
  intro hmem
  exact absurd ((h.2.1 0).1 hmem).2 (by decide)

/-- C3 counterexample: the relabelling stage runs only when
`empty_thread_inds` is nonempty.  On a trimmed run whose thread 0 vanished
entirely during trimming (so no thread was marked empty), the stage passes
the run through unchanged and the surviving labels are `[1]`, not the
contiguous range `0..T'-1 = [0]`. -/
theorem claim3_contiguity_counterexample :
    relabelStage cR3 [] = .ok cR3 ∧ cR3.thread_labels = [1] ∧
    uniqSorted cR3.thread_labels ≠ List.range (uniqSorted cR3.thread_labels).length :=
  ⟨by decide, rfl, by decide⟩

/-- C3 (amended): whenever the empty-thread set is nonempty — so the
relabelling branch actually executes — and it completes, the surviving
thread labels are exactly the contiguous range `0..T'-1` (with `T'` the
number of surviving threads), each surviving thread keeps its original
relative order, and every point's label is rewritten accordingly (each
thread keeps exactly its own points under its new label). -/
theorem claim3_amended_contiguity (r : Run) (empt : List Nat) (r' : Run)
    (hne : empt ≠ []) (h : relabelStage r empt = .ok r') :
    uniqSorted r'.thread_labels = List.range (uniqSorted r.thread_labels).length ∧
    (∀ la ∈ r.thread_labels, ∀ lb ∈ r.thread_labels, la < lb →
      (uniqSorted r.thread_labels).indexOf la < (uniqSorted r.thread_labels).indexOf lb) ∧
    (∀ lab ∈ r.thread_labels,
      thPick r'.thread_labels r'.logl ((uniqSorted r.thread_labels).indexOf lab) =
        thPick r.thread_labels r.logl lab) := by
  unfold relabelStage at h
  rw [if_neg hne] at h
  obtain ⟨hchk, hr'⟩ := relabelRun_ok h
  have hlabels : r'.thread_labels =
      r.thread_labels.map (fun lab => (uniqSorted r.thread_labels).indexOf lab) := by
    rw [hr']
  have hlogl : r'.logl = r.logl := by rw [hr']
  refine ⟨?_, ?_, ?_⟩
  · rw [hlabels]
    apply uniqSorted_eq_range
    · intro x hx
      obtain ⟨y, hy, rfl⟩ := List.mem_map.1 hx
      exact List.indexOf_lt_length.2 (mem_uniqSorted.2 hy)
    · intro i hi
      refine List.mem_map.2 ⟨(uniqSorted r.thread_labels).getD i 0, ?_, ?_⟩
      · exact mem_uniqSorted.1 (getD_mem hi 0)
      · exact indexOf_getD_of_nodup (nodup_uniqSorted _) hi 0
  · intro la hla lb hlb hlt
    exact indexOf_lt_of_pairwise (pairwise_uniqSorted _) (mem_uniqSorted.2 hla)
      (mem_uniqSorted.2 hlb) hlt
  · intro lab hlab
    rw [hlabels, hlogl]
    exact thPick_map_relabel r.thread_labels r.logl
      (fun x hx => uniq_indexOf_inj hx hlab)

/-- C3 witness: the relabelling branch on `cR3w` (empty thread 0 removed)
yields contiguous labels and preserves thread 2's points under its new
label 0. -/
theorem claim3_amended_contiguity_witness :
    uniqSorted cR3wOut.thread_labels = List.range (uniqSorted cR3w.thread_labels).length ∧
    thPick cR3wOut.thread_labels cR3wOut.logl ((uniqSorted cR3w.thread_labels).indexOf 2) =
      thPick cR3w.thread_labels cR3w.logl 2 := by
  have h := claim3_amended_contiguity cR3w [0] cR3wOut (by decide) (by decide)
  exact ⟨h.1, h.2.2 2 (by decide)⟩

/-- C4: whenever the relabelling branch completes, every relabelled thread
satisfies `birth_bound ≤` logl of its first point and `death_bound =` logl
of its last point; and whenever some checked row violates these bounds the
branch fails with the InvariantError (thread bound mismatch). -/
theorem claim4_thread_bound_postcondition (r : Run) (empt : List Nat) (r' : Run) :
    (relabelRun r empt = .ok r' →
      ∀ lab ∈ r'.thread_labels,
        boundPass r'.thread_labels r'.logl lab
          (r'.thread_min_max.getD lab (.ninf, .ninf))) ∧
    ((∃ i < (uniqSorted r.thread_labels).length, ∃ row,
        (deleteIdxs r.thread_min_max empt).get? i = some row ∧
        ¬ boundPass r.thread_labels r.logl ((uniqSorted r.thread_labels).getD i 0) row) →
      relabelRun r empt = .error .threadBoundMismatch) := by
  constructor
  · intro h lab' hlab'
    obtain ⟨hchk, hr'⟩ := relabelRun_ok h
    have hlabels : r'.thread_labels =
        r.thread_labels.map (fun lab => (uniqSorted r.thread_labels).indexOf lab) := by
      rw [hr']
    have hlogl : r'.logl = r.logl := by rw [hr']
    have htmm : r'.thread_min_max = deleteIdxs r.thread_min_max empt := by rw [hr']
    rw [hlabels] at hlab'
    obtain ⟨lab, hlab, rfl⟩ := List.mem_map.1 hlab'
    have hmemus : lab ∈ uniqSorted r.thread_labels := mem_uniqSorted.2 hlab
    have hil : (uniqSorted r.thread_labels).indexOf lab <
        (uniqSorted r.thread_labels).length := List.indexOf_lt_length.2 hmemus
    have hpairm : ((uniqSorted r.thread_labels).indexOf lab,
        (uniqSorted r.thread_labels).getD ((uniqSorted r.thread_labels).indexOf lab) 0) ∈
          enumIdx (uniqSorted r.thread_labels) := mem_enumIdx.2 ⟨hil, rfl⟩
    have hgd : (uniqSorted r.thread_labels).getD
        ((uniqSorted r.thread_labels).indexOf lab) 0 = lab := getD_indexOf hmemus 0
    obtain ⟨row, hrow, hbp⟩ := checkThreadBounds_ok hchk _ hpairm
    simp only at hbp hrow
    rw [hgd] at hbp
    have hinds : thInds r'.thread_labels ((uniqSorted r.thread_labels).indexOf lab) =
        thInds r.thread_labels lab := by
      rw [hlabels]
      exact thInds_map_relabel (fun x hx => uniq_indexOf_inj hx hlab)
    have hrowD : (deleteIdxs r.thread_min_max empt).getD
        ((uniqSorted r.thread_labels).indexOf lab) (.ninf, .ninf) = row :=
      getD_of_get? hrow _
    unfold boundPass at hbp ⊢
    rw [htmm, hlogl, hinds, hrowD]
    exact hbp
  · rintro ⟨i, hi, row, hrow, hnb⟩
    exact relabelRun_of_fail
      ⟨(i, (uniqSorted r.thread_labels).getD i 0), mem_enumIdx.2 ⟨hi, rfl⟩, row, hrow, hnb⟩

/-- C4 witness: the relabelling branch on `cR3w` yields a thread whose
bounds check out, and on `cR4bad` (birth 9 above its first logl 5) it fails
with the thread-bound InvariantError. -/
theorem claim4_thread_bound_postcondition_witness :
    boundPass cR3wOut.thread_labels cR3wOut.logl 0
      (cR3wOut.thread_min_max.getD 0 (.ninf, .ninf)) ∧
    relabelRun cR4bad [0] = .error .threadBoundMismatch := by
  constructor
  · exact (claim4_thread_bound_postcondition cR3w [0] cR3wOut).1 (by decide) 0 (by decide)
  · exact (claim4_thread_bound_postcondition cR4bad [0] cR4bad).2
      ⟨0, by decide, (.fin 9, .fin 6), by decide, by decide⟩

/-! ### Multiset bookkeeping for the no-overlap comparison -/

theorem map_snd_zip' {α β : Type} :
    ∀ (l1 : List α) (l2 : List β), l1.length = l2.length →
      (l1.zip l2).map (fun q => q.2) = l2
  | [], [], _ => rfl
  | [], _ :: _, h => by cases h
  | _ :: _, [], h => by cases h
  | a :: t1, b :: t2, h => by
    rw [List.zip_cons_cons, List.map_cons, map_snd_zip' t1 t2 (Nat.succ_injective h)]

theorem flatten_cons_perm {α β : Type} (us : List β) (f : β → α) (g : β → List α) :
    ((us.map (fun u => f u :: g u)).flatten).Perm (us.map f ++ (us.map g).flatten) := by
  induction us with
  | nil => exact List.Perm.refl _
  | cons u rest ih =>
    rw [List.map_cons, List.flatten_cons, List.map_cons, List.map_cons, List.flatten_cons,
      List.cons_append, List.cons_append]
    apply List.Perm.cons
    refine (List.Perm.append_left (g u) ih).trans ?_
    rw [← List.append_assoc, ← List.append_assoc]
    exact List.Perm.append_right _ List.perm_append_comm

theorem filter_nonempty_of_mem {α : Type} {labels : List Nat} {xs : List α} {lab : Nat}
    (hlen : labels.length = xs.length) (hm : lab ∈ labels) :
    (labels.zip xs).filter (fun q => q.1 == lab) ≠ [] := by
  have h1 : lab ∈ (labels.zip xs).map Prod.fst := by
    rw [List.map_fst_zip _ _ (le_of_eq hlen)]
    exact hm
  obtain ⟨q, hq, hq1⟩ := List.mem_map.1 h1
  intro hnil
  have hqf : q ∈ (labels.zip xs).filter (fun q => q.1 == lab) :=
    List.mem_filter.2 ⟨hq, beq_iff_eq.mpr hq1⟩
  rw [hnil] at hqf
  cases hqf

theorem perm_heads_delete {labels : List Nat} {xs : List Int}
    (hlen : labels.length = xs.length) :
    xs.Perm (((uniqSorted labels).map (fun u => (thPick labels xs u).headI)) ++
      deleteIdxs xs (liveOf labels)) := by
  have hfst : (labels.zip xs).map Prod.fst = labels :=
    List.map_fst_zip _ _ (le_of_eq hlen)
  have hmem : ∀ q ∈ labels.zip xs, q.1 ∈ uniqSorted labels :=
    fun q hq => mem_uniqSorted.2 (List.of_mem_zip hq).1
  have hpart := flatten_filter_perm (nodup_uniqSorted labels) hmem
  have hhead : ∀ u ∈ uniqSorted labels,
      (labels.zip xs).filter (fun q => q.1 == u) =
        ((labels.zip xs).filter (fun q => q.1 == u)).headI ::
          (deleteIdxs (labels.zip xs) (liveOf labels)).filter (fun q => q.1 == u) := by
    intro u hu
    have hne : (labels.zip xs).filter (fun q => q.1 == u) ≠ [] :=
      filter_nonempty_of_mem hlen (mem_uniqSorted.1 hu)
    have htail := filter_delete_heads_nil (labels.zip xs) u
    rw [hfst] at htail
    rw [htail]
    exact headI_cons_tail hne
  have hmap := List.map_congr_left hhead
  rw [hmap] at hpart
  have hcons := flatten_cons_perm (uniqSorted labels)
    (fun u => ((labels.zip xs).filter (fun q => q.1 == u)).headI)
    (fun u => (deleteIdxs (labels.zip xs) (liveOf labels)).filter (fun q => q.1 == u))
  have hdel : (((uniqSorted labels).map
      (fun u => (deleteIdxs (labels.zip xs) (liveOf labels)).filter
        (fun q => q.1 == u))).flatten).Perm
        (deleteIdxs (labels.zip xs) (liveOf labels)) := by
    apply flatten_filter_perm (nodup_uniqSorted labels)
    intro q hq
    exact hmem q (mem_of_mem_deleteIdxsFrom hq)
  have hz : (labels.zip xs).Perm
      ((uniqSorted labels).map
        (fun u => ((labels.zip xs).filter (fun q => q.1 == u)).headI) ++
        deleteIdxs (labels.zip xs) (liveOf labels)) :=
    hpart.symm.trans (hcons.trans (List.Perm.append_left _ hdel))
  have hsnd := hz.map (fun q : Nat × Int => q.2)
  rw [map_snd_zip' labels xs hlen, List.map_append, List.map_map] at hsnd
  have hheads : (uniqSorted labels).map ((fun q : Nat × Int => q.2) ∘
      (fun u => ((labels.zip xs).filter (fun q => q.1 == u)).headI)) =
      (uniqSorted labels).map (fun u => (thPick labels xs u).headI) := by
    apply List.map_congr_left
    intro u hu
    have hne : (labels.zip xs).filter (fun q => q.1 == u) ≠ [] :=
      filter_nonempty_of_mem hlen (mem_uniqSorted.1 hu)
    unfold thPick
    cases hl : (labels.zip xs).filter (fun q => q.1 == u) with
    | nil => exact absurd hl hne
    | cons q t => simp [hl]
  rw [hheads] at hsnd
  have hdsnd : (deleteIdxs (labels.zip xs) (liveOf labels)).map
      (fun q : Nat × Int => q.2) = deleteIdxs xs (liveOf labels) := by
    unfold deleteIdxs
    rw [← zip_deleteIdxsFrom hlen]
    exact map_snd_zip' _ _ (length_deleteIdxsFrom_eq hlen _ _)
  rw [hdsnd] at hsnd
  exact hsnd

theorem trimRun_zero (r : Run) : trimRun r 0 = r := rfl

theorem relabelStage_ok_logl {r : Run} {empt : List Nat} {r' : Run}
    (h : relabelStage r empt = .ok r') : r'.logl = r.logl := by
  unfold relabelStage at h
  split at h
  · injection h with h'
    rw [← h']
  · obtain ⟨_, hr'⟩ := relabelRun_ok h
    rw [hr']

theorem relabelStage_ok_labels_length {r : Run} {empt : List Nat} {r' : Run}
    (h : relabelStage r empt = .ok r') :
    r'.thread_labels.length = r.thread_labels.length := by
  unfold relabelStage at h
  split at h
  · injection h with h'
    rw [← h']
  · obtain ⟨_, hr'⟩ := relabelRun_ok h
    rw [hr']
    exact List.length_map _ _

theorem resolveLive_ok_live_eq {d : List Int} {labels : List Nat} {lg : List Int}
    {tmm : List (FV × FV)} {live empt : List Nat} {tmm' : List (FV × FV)}
    (h : resolveLive d labels lg tmm = .ok (live, empt, tmm')) : live = liveOf labels := by
  unfold resolveLive at h
  have hlive := resolveLiveAux_ok_live h
  rw [List.nil_append] at hlive
  rw [hlive]
  unfold liveOf
  exact map_snd_enumIdx (uniqSorted labels) (fun u => (thInds labels u).headI)

theorem combine_state_ok_elim {init dyn : Run} {rn : Nat} {ia r : Run}
    (h : combine_resumed_dyn_run_state init dyn rn = .ok (ia, r)) :
    init.logl.take rn = dyn.logl.take rn ∧
    ∃ live empt tmm1 t2,
      resolveLive dyn.logl (trimRun init rn).thread_labels (trimRun init rn).logl
          (trimRun init rn).thread_min_max = .ok (live, empt, tmm1) ∧
      relabelStage (pruneLive (trimRun init rn) live tmm1) empt = .ok t2 ∧
      ia = shiftLabels t2 dyn.thread_min_max.length ∧
      combine_threads (get_run_threads dyn ++ get_run_threads ia) true = .ok r := by
  unfold combine_resumed_dyn_run_state at h
  split at h
  · rename_i hpre
    refine ⟨hpre, ?_⟩
    simp only [] at h
    split at h
    · cases h
    · rename_i out live empt tmm1 hres
      split at h
      · cases h
      · rename_i t2 hrel
        split at h
        · cases h
        · rename_i run hcomb
          injection h with h'
          simp only [Prod.mk.injEq] at h'
          obtain ⟨hia, hrun⟩ := h'
          subst hia
          subst hrun
          exact ⟨live, empt, tmm1, t2, hres, hrel, rfl, hcomb⟩
  · cases h

/-- C6 counterexample: with `resume_ndead = 0` the resumed path still removes
each init thread's first point (the checkpoint live points), so on
`cI6`/`cD6` it returns two points while the plain union-merge path returns
three — the multisets differ, refuting the claimed equivalence. -/
theorem claim6_no_overlap_counterexample :
    (combine_ns_runs cI6 cD6).map (fun q => q.logl) = .ok [1, 1, 2] ∧
    (combine_resumed_dyn_run cI6 cD6 0).map (fun q => q.logl) = .ok [1, 2] ∧
    ¬ (([1, 1, 2] : List Int).Perm [1, 2]) := by
  refine ⟨by decide, by decide, ?_⟩
  intro hp
  have hlen := hp.length_eq
  simp at hlen

/-- C6 (amended): combining with `resume_ndead = 0` yields the union-merge
point multiset minus each init thread's first point: whenever both paths
succeed, the union-path logl multiset equals the resumed-path logl multiset
plus the logl of each init thread's first point. -/
theorem claim6_amended_no_overlap (init dyn : Run) (r u : Run)
    (hIl : init.thread_labels.length = init.logl.length)
    (hDl : dyn.thread_labels.length = dyn.logl.length)
    (hr : combine_resumed_dyn_run init dyn 0 = .ok r)
    (hu : combine_ns_runs init dyn = .ok u) :
    u.logl.Perm (r.logl ++ (uniqSorted init.thread_labels).map
      (fun lab => (thPick init.thread_labels init.logl lab).headI)) := by
  unfold combine_ns_runs at hu
  have hup := combine_threads_ok_perm hu
  rw [List.map_append, List.flatten_append] at hup
  have hinit_part : (((get_run_threads init).map (fun th => th.logl)).flatten).Perm
      init.logl := by
    rw [get_run_threads_logl]
    exact flatten_thPick_perm hIl
  have hdyn_part : (((get_run_threads dyn).map (fun th => th.logl)).flatten).Perm
      dyn.logl := by
    rw [get_run_threads_logl]
    exact flatten_thPick_perm hDl
  have hu2 : u.logl.Perm (init.logl ++ dyn.logl) :=
    hup.trans (List.Perm.append hinit_part hdyn_part)
  obtain ⟨⟨ia, rr⟩, hstate, hr2⟩ := except_map_ok hr
  have hr2' : r = rr := hr2
  subst hr2'
  obtain ⟨hpre, live, empt, tmm1, t2, hres, hrel, hia, hcomb⟩ := combine_state_ok_elim hstate
  rw [trimRun_zero] at hres hrel
  have hlive := resolveLive_ok_live_eq hres
  have hia_logl : ia.logl = deleteIdxs init.logl (liveOf init.thread_labels) := by
    rw [hia]
    show t2.logl = _
    rw [relabelStage_ok_logl hrel]
    show deleteIdxs init.logl live = _
    rw [hlive]
  have hia_len : ia.thread_labels.length = ia.logl.length := by
    rw [hia]
    show (t2.thread_labels.map _).length = t2.logl.length
    rw [List.length_map, relabelStage_ok_labels_length hrel, relabelStage_ok_logl hrel]
    exact length_deleteIdxsFrom_eq hIl _ _
  have hrp := combine_threads_ok_perm hcomb
  rw [List.map_append, List.flatten_append] at hrp
  have hia_part : (((get_run_threads ia).map (fun th => th.logl)).flatten).Perm ia.logl := by
    rw [get_run_threads_logl]
    exact flatten_thPick_perm hia_len
  have hr3 : r.logl.Perm (dyn.logl ++ ia.logl) :=
    hrp.trans (List.Perm.append hdyn_part hia_part)
  rw [hia_logl] at hr3
  have hheads := perm_heads_delete hIl
  have h4 : u.logl.Perm ((dyn.logl ++ deleteIdxs init.logl (liveOf init.thread_labels)) ++
      (uniqSorted init.thread_labels).map
        (fun lab => (thPick init.thread_labels init.logl lab).headI)) := by
    refine hu2.trans ?_
    refine (List.Perm.append_right dyn.logl hheads).trans ?_
    refine List.perm_append_comm.trans ?_
    refine (List.Perm.append_left dyn.logl List.perm_append_comm).trans ?_
    rw [List.append_assoc]
  have h5 : (r.logl ++ (uniqSorted init.thread_labels).map
      (fun lab => (thPick init.thread_labels init.logl lab).headI)).Perm
      ((dyn.logl ++ deleteIdxs init.logl (liveOf init.thread_labels)) ++
        (uniqSorted init.thread_labels).map
          (fun lab => (thPick init.thread_labels init.logl lab).headI)) :=
    List.Perm.append_right _ hr3
  exact h4.trans h5.symm

/-- C6 witness: on `cI6`/`cD6` both paths succeed and the union multiset
`[1, 1, 2]` is the resumed multiset `[1, 2]` plus the init thread's removed
first point (logl 1). -/
theorem claim6_amended_no_overlap_witness :
    u6.logl.Perm (r6.logl ++ (uniqSorted cI6.thread_labels).map
      (fun lab => (thPick cI6.thread_labels cI6.logl lab).headI)) :=
  claim6_amended_no_overlap cI6 cD6 r6 u6 (by decide) (by decide) (by decide) (by decide)

/-- C9 counterexample: `combine_resumed_dyn_run` mutates the caller-visible
`init` record in place; on `cI6`/`cD6` the combination succeeds and the
post-call state of the `init` buffer differs from the original record. -/
theorem claim9_frame_counterexample :
    (combine_resumed_dyn_run_state cI6 cD6 0).map (fun p => p.1) = .ok ia6 ∧
    ia6 ≠ cI6 :=
  ⟨by decide, by decide⟩

/-- C9 (amended): the `init` record is mutated in place rather than left
unchanged: whenever trimming leaves at least one point
(`resume_ndead <` number of init points) and the combination succeeds, the
post-call `init` buffer has strictly fewer points than, and so differs from,
the original record. -/
theorem claim9_amended_init_mutation (init dyn : Run) (rn : Nat) (ia r : Run)
    (hIl : init.thread_labels.length = init.logl.length)
    (hrn : rn < init.thread_labels.length)
    (h : combine_resumed_dyn_run_state init dyn rn = .ok (ia, r)) :
    ia.logl.length < init.logl.length ∧ ia ≠ init := by
  obtain ⟨hpre, live, empt, tmm1, t2, hres, hrel, hia, hcomb⟩ := combine_state_ok_elim h
  have hlive := resolveLive_ok_live_eq hres
  have htl : (trimRun init rn).thread_labels = init.thread_labels.drop rn := rfl
  have htlogl : (trimRun init rn).logl = init.logl.drop rn := rfl
  have htlne : (trimRun init rn).thread_labels ≠ [] := by
    rw [htl]
    intro hnil
    have hlen0 := congrArg List.length hnil
    rw [List.length_drop] at hlen0
    simp only [List.length_nil] at hlen0
    omega
  obtain ⟨u0, hu0⟩ := List.exists_mem_of_ne_nil _ (uniqSorted_ne_nil htlne)
  have hu0m : u0 ∈ (trimRun init rn).thread_labels := mem_uniqSorted.1 hu0
  have hidxlt : (trimRun init rn).thread_labels.indexOf u0 <
      (trimRun init rn).thread_labels.length := List.indexOf_lt_length.2 hu0m
  have hmemlive : (thInds (trimRun init rn).thread_labels u0).headI ∈
      liveOf (trimRun init rn).thread_labels := List.mem_map_of_mem _ hu0
  have hidx : (thInds (trimRun init rn).thread_labels u0).headI =
      (trimRun init rn).thread_labels.indexOf u0 := by
    unfold thInds
    rw [headI_thIndsFrom hu0m 0]
    simp
  have hlenT : (trimRun init rn).logl.length = (trimRun init rn).thread_labels.length := by
    rw [htl, htlogl, List.length_drop, List.length_drop, hIl]
  have hlt : (deleteIdxs (trimRun init rn).logl
      (liveOf (trimRun init rn).thread_labels)).length < (trimRun init rn).logl.length := by
    apply length_deleteIdxsFrom_lt hmemlive (Nat.zero_le _)
    rw [hidx, Nat.zero_add, hlenT]
    exact hidxlt
  have hia_logl : ia.logl = deleteIdxs (trimRun init rn).logl live := by
    rw [hia]
    show t2.logl = _
    rw [relabelStage_ok_logl hrel]
    rfl
  have hfin : ia.logl.length < init.logl.length := by
    rw [hia_logl, hlive]
    refine lt_of_lt_of_le hlt ?_
    rw [htlogl, List.length_drop]
    exact Nat.sub_le _ _
  refine ⟨hfin, fun he => ?_⟩
  rw [he] at hfin
  exact absurd hfin (lt_irrefl _)

/-- C9 witness: the amended statement holds on the concrete pair
`cI6`/`cD6`. -/
theorem claim9_amended_init_mutation_witness :
    ia6.logl.length < cI6.logl.length ∧ ia6 ≠ cI6 :=
  claim9_amended_init_mutation cI6 cD6 0 ia6 r6 (by decide) (by decide) (by decide)

end DyPolyChord
